import Mathlib

/-!
# Algorithm Anthology: Eulerian cycles (1.1.4) and the chained hashmap (3.5)

A shallow embedding of `euler_cycle_directed`, `euler_cycle_undirected` and of the
`hashmap` class template, followed by the properties proved about them.

Conventions of the embedding.
* The arrays `cur_edge` and `used` are functions on `Nat`, all zero at the start. Every access
  the source makes to `cur_edge`, `used` or `adj` is preceded by a bounds test against `MAXN`
  or the extent of `adj`; where the source would read out of bounds the run returns `none`.
* Adjacency entries are natural numbers, `adj` is the list of the adjacency vectors.
* The `stack` vector is a list whose head is `stack.back()`; `res.push_back(u)` appends.
* Every loop takes a fuel argument that bounds its iterations (`none` when it runs out); an
  inner loop, and the `insert` calls made by `rehash`, run on the fuel that is left.
* `table_size` is a natural number and `map_size` an integer, both without overflow; a null
  pointer returned by `find` is `none`, a pointer to a value is `some` of that value.
-/

set_option linter.unusedVariables false
set_option linter.unusedSectionVars false

namespace Euler

/-- The constant `MAXN`: the extent of the arrays `cur_edge` and `used`. -/
def MAXN : Nat := 100

/-- Inner `while (cur_edge[u] < adj[u].size())` loop of `euler_cycle_directed`: the state is
`cur_edge`, `stack` and the current vertex `u`. Reading `cur_edge[u]` needs `u < MAXN` and
reading `adj[u]` needs `u` below the extent of `adj`. -/
def directed_walk (adj : List (List Nat)) :
    Nat → (Nat → Nat) → List Nat → Nat → Option ((Nat → Nat) × List Nat × Nat)
  | 0, _, _, _ => none
  | fuel + 1, cur_edge, stack, u =>
    if u < MAXN ∧ u < adj.length then
      if cur_edge u < (adj.getD u []).length then
        directed_walk adj fuel (Function.update cur_edge u (cur_edge u + 1)) (u :: stack)
          ((adj.getD u []).getD (cur_edge u) 0)
      else some (cur_edge, stack, u)
    else none

/-- Outer `while (!stack.empty())` loop of `euler_cycle_directed`; the inner loop runs on the
fuel that is left. -/
def directed_loop (adj : List (List Nat)) :
    Nat → (Nat → Nat) → List Nat → List Nat → Option (List Nat)
  | 0, _, _, _ => none
  | fuel + 1, cur_edge, stack, res =>
    match stack with
    | [] => some res
    | u :: stack =>
      match directed_walk adj fuel cur_edge stack u with
      | none => none
      | some (cur_edge, stack, u) => directed_loop adj fuel cur_edge stack (res ++ [u])

/-- Function `euler_cycle_directed(adj, nodes, u)`: `cur_edge` starts at zero, the stack holds
`u`, and the collected vertices are reversed at the end. The source never reads `nodes`. -/
def euler_cycle_directed (fuel : Nat) (adj : List (List Nat)) (nodes : Nat) (u : Nat) :
    Option (List Nat) :=
  (directed_loop adj fuel (fun _ => 0) [u] []).map List.reverse

/-- The consecutive pairs `(w[i], w[i+1])` of a vertex sequence. -/
def pairs (w : List Nat) : List (Nat × Nat) := w.zip w.tail

/-- The directed edges `(a, b)`, one for every occurrence of `b` in `adj[a]`. -/
def edges (adj : List (List Nat)) : List (Nat × Nat) :=
  (List.range adj.length).flatMap (fun a => (adj.getD a []).map (fun b => (a, b)))

/-- The adjacency entries the cursors have passed: the first `cur a` entries of each `adj[a]`. -/
def usedEdges (adj : List (List Nat)) (cur : Nat → Nat) : List (Nat × Nat) :=
  (List.range adj.length).flatMap
    (fun a => ((adj.getD a []).take (cur a)).map (fun b => (a, b)))

/-- Multiplicity of an edge in a list of edges. -/
def ecount (e : Nat × Nat) (l : List (Nat × Nat)) : Nat :=
  l.countP (fun x => decide (x = e))

/-- Out-degree: the number of edges leaving `v`. -/
def outdeg (adj : List (List Nat)) (v : Nat) : Nat := ((edges adj).map Prod.fst).count v

/-- In-degree: the number of edges entering `v`. -/
def indeg (adj : List (List Nat)) (v : Nat) : Nat := ((edges adj).map Prod.snd).count v

/-- Invariant of the inner loop of `euler_cycle_directed`: `p` is the vertex popped by the
current outer iteration and `rr` the output so far, in final (reversed) order. The walk along
the stack to the current vertex and the walk `p :: rr` together use exactly the consumed
edges. -/
structure WalkInv (adj : List (List Nat)) (start p : Nat) (rr : List Nat)
    (cur : Nat → Nat) (stack : List Nat) (c : Nat) : Prop where
  bound : c < adj.length
  sbound : ∀ x ∈ stack, x < adj.length
  le : ∀ a, cur a ≤ (adj.getD a []).length
  perm : (pairs (stack.reverse ++ [c]) ++ pairs (p :: rr)).Perm (usedEdges adj cur)
  head : (stack.reverse ++ [c]).head? = some start
  last : (p :: rr).getLast? = some start
  fin : ∀ x ∈ rr, cur x = (adj.getD x []).length

/-- Invariant at the head of the outer loop of `euler_cycle_directed`: the stack followed by the
output is one walk from `start` back to `start` over exactly the consumed edges, and every
vertex already output has no edge left. -/
structure LoopInv (adj : List (List Nat)) (start : Nat) (cur : Nat → Nat)
    (stack rr : List Nat) : Prop where
  bound : ∀ x ∈ stack, x < adj.length
  le : ∀ a, cur a ≤ (adj.getD a []).length
  perm : (pairs (stack.reverse ++ rr)).Perm (usedEdges adj cur)
  head : (stack.reverse ++ rr).head? = some start
  last : (stack.reverse ++ rr).getLast? = some start
  fin : ∀ x ∈ rr, cur x = (adj.getD x []).length

/-- Every adjacency entry is a vertex. -/
def ValidAdj (adj : List (List Nat)) : Prop :=
  ∀ a b, (a, b) ∈ edges adj → b < adj.length

/-- Reachability along directed edges. -/
def Reach (adj : List (List Nat)) : Nat → Nat → Prop :=
  Relation.ReflTransGen (fun a b => (a, b) ∈ edges adj)

/-- The directed sample graph of `main`: edges 0->1, 1->2, 2->0, 1->3, 3->4, 4->1. -/
def g1 : List (List Nat) := [[1], [2, 3], [0], [4], [1]]

/-- Inner `while (cur_edge[u] < adj[u].size())` loop of `euler_cycle_undirected`: the state is
`cur_edge`, `used`, `stack` and the current vertex `u`. Reading `used[min(u, v)][max(u, v)]`
needs `max(u, v) < MAXN`. -/
def undirected_walk (adj : List (List Nat)) :
    Nat → (Nat → Nat) → (Nat → Nat → Bool) → List Nat → Nat →
      Option ((Nat → Nat) × (Nat → Nat → Bool) × List Nat × Nat)
  | 0, _, _, _, _ => none
  | fuel + 1, cur_edge, used, stack, u =>
    if u < MAXN ∧ u < adj.length then
      if cur_edge u < (adj.getD u []).length then
        let v := (adj.getD u []).getD (cur_edge u) 0
        let cur_edge := Function.update cur_edge u (cur_edge u + 1)
        if max u v < MAXN then
          if !used (min u v) (max u v) then
            undirected_walk adj fuel cur_edge
              (Function.update used (min u v) (Function.update (used (min u v)) (max u v) true))
              (u :: stack) v
          else undirected_walk adj fuel cur_edge used stack u
        else none
      else some (cur_edge, used, stack, u)
    else none

/-- Outer `while (!stack.empty())` loop of `euler_cycle_undirected`. -/
def undirected_loop (adj : List (List Nat)) :
    Nat → (Nat → Nat) → (Nat → Nat → Bool) → List Nat → List Nat → Option (List Nat)
  | 0, _, _, _, _ => none
  | fuel + 1, cur_edge, used, stack, res =>
    match stack with
    | [] => some res
    | u :: stack =>
      match undirected_walk adj fuel cur_edge used stack u with
      | none => none
      | some (cur_edge, used, stack, u) =>
        undirected_loop adj fuel cur_edge used stack (res ++ [u])

/-- Function `euler_cycle_undirected(adj, nodes, u)`: `cur_edge` and `used` start at zero, the
stack holds `u`, and the collected vertices are reversed at the end. -/
def euler_cycle_undirected (fuel : Nat) (adj : List (List Nat)) (nodes : Nat) (u : Nat) :
    Option (List Nat) :=
  (undirected_loop adj fuel (fun _ => 0) (fun _ _ => false) [u] []).map List.reverse

/-- An ordered pair read as an unordered one: smaller endpoint first. -/
def upair (e : Nat × Nat) : Nat × Nat := (min e.1 e.2, max e.1 e.2)

/-- The edges of a symmetric adjacency structure, one representative per unordered pair. -/
def uedges (adj : List (List Nat)) : List (Nat × Nat) :=
  (edges adj).filter (fun e => e.1 < e.2)

/-- What the undirected finder maintains about the list `P` of traversed ordered pairs: they
are edges, no unordered pair occurs twice, `used` marks exactly them, and every adjacency
entry already passed by a cursor has its unordered pair among them. -/
structure TravInv (adj : List (List Nat)) (cur : Nat → Nat) (used : Nat → Nat → Bool)
    (P : List (Nat × Nat)) : Prop where
  le : ∀ a, cur a ≤ (adj.getD a []).length
  isEdge : ∀ e ∈ P, e ∈ edges adj
  nodup : (P.map upair).Nodup
  usedIff : ∀ x y, used x y = true ↔ (x, y) ∈ P.map upair
  scanned : ∀ e ∈ usedEdges adj cur, upair e ∈ P.map upair

/-- Invariant of the inner loop of `euler_cycle_undirected`, with `p` the vertex popped by the
current outer iteration and `rr` the output so far in final order. -/
structure UWalkInv (adj : List (List Nat)) (start p : Nat) (rr : List Nat)
    (cur : Nat → Nat) (used : Nat → Nat → Bool) (stack : List Nat) (c : Nat) : Prop where
  bound : c < adj.length
  sbound : ∀ x ∈ stack, x < adj.length
  trav : TravInv adj cur used (pairs (stack.reverse ++ [c]) ++ pairs (p :: rr))
  head : (stack.reverse ++ [c]).head? = some start
  last : (p :: rr).getLast? = some start
  fin : ∀ x ∈ rr, cur x = (adj.getD x []).length

/-- What the adjacency lists of a simple undirected graph satisfy. -/
structure SimpleAdj (adj : List (List Nat)) : Prop where
  valid : ∀ l ∈ adj, ∀ b ∈ l, b < adj.length
  symm : ∀ a b, (a, b) ∈ edges adj → (b, a) ∈ edges adj
  noLoop : ∀ a, (a, a) ∉ edges adj
  noParallel : ∀ l ∈ adj, l.Nodup

/-- The triangle on the vertices 0, 1, 2. -/
def g3 : List (List Nat) := [[1, 2], [2, 0], [0, 1]]

/-- The undirected sample graph of `main`, adjacency lists in the order `main` builds them. -/
def g2 : List (List Nat) := [[1, 3, 4, 2], [0, 2, 4, 3], [1, 3, 0], [2, 0, 1], [0, 1]]

/-- A directed graph without an Eulerian cycle: edges 0->1 and 0->2. -/
def gFork : List (List Nat) := [[1, 2], [], []]

/-- Two disjoint directed 2-cycles, 0->1->0 and 2->3->2: balanced degrees, not connected. -/
def gTwoCycles : List (List Nat) := [[1], [0], [3], [2]]

/-- Two vertices joined by two parallel undirected edges. -/
def gParallel : List (List Nat) := [[1, 1], [0, 0]]

end Euler

namespace Hashmap

/-- The `entry_t` struct: a key with its value. -/
structure entry_t (K V : Type) where
  key : K
  val : V
deriving DecidableEq

/-- The data members of `hashmap`: the bucket array, `table_size` and `map_size`. -/
structure hashmap (K V : Type) where
  table : List (List (entry_t K V))
  table_size : Nat
  map_size : Int
deriving DecidableEq

variable {K V : Type} [DecidableEq K]

/-- Constructor `hashmap(int size)`: `size` empty buckets, no entries. -/
def hashmap.new (size : Nat) : hashmap K V :=
  { table := List.replicate size [], table_size := size, map_size := 0 }

def size (m : hashmap K V) : Int := m.map_size

/-- Method `find`: the value of the first entry of bucket `Hash(key) % table_size` whose key is
`key`, or `none` for the null pointer. -/
def find (Hash : K → Nat) (m : hashmap K V) (key : K) : Option V :=
  let i := Hash key % m.table_size
  ((m.table.getD i []).find? (fun e => decide (e.key = key))).map entry_t.val

/-- Method `rehash`, with the `insert` it calls passed as `ins`. -/
def rehashWith (ins : hashmap K V → K → V → Option (hashmap K V)) (m : hashmap K V) :
    Option (hashmap K V) :=
  let old := m.table
  let old_size := m.table_size
  let m0 : hashmap K V :=
    { table := List.replicate (2 * old_size) [], table_size := 2 * old_size, map_size := 0 }
  (List.range old_size).foldlM
    (fun acc i => (old.getD i []).foldlM (fun acc e => ins acc e.key e.val) acc) m0

/-- Method `insert`; the fuel bounds the nesting of `insert` inside `rehash`. -/
def insert (Hash : K → Nat) : Nat → hashmap K V → K → V → Option (hashmap K V)
  | 0, _, _, _ => none
  | fuel + 1, m, key, val =>
    if (find Hash m key).isSome then some m
    else
      match (if m.map_size ≥ (m.table_size : Int) then rehashWith (insert Hash fuel) m
             else some m) with
      | none => none
      | some m1 =>
        let i := Hash key % m1.table_size
        some { m1 with
          table := m1.table.set i (m1.table.getD i [] ++ [⟨key, val⟩])
          map_size := m1.map_size + 1 }

/-- Method `rehash` as called from `insert` with the given fuel. -/
def rehash (Hash : K → Nat) (fuel : Nat) (m : hashmap K V) : Option (hashmap K V) :=
  rehashWith (insert Hash fuel) m

/-- Method `remove`. -/
def remove (Hash : K → Nat) (m : hashmap K V) (key : K) : hashmap K V :=
  let i := Hash key % m.table_size
  match (m.table.getD i []).find? (fun e => decide (e.key = key)) with
  | none => m
  | some _ =>
    { m with
      table := m.table.set i ((m.table.getD i []).eraseP (fun e => decide (e.key = key)))
      map_size := m.map_size - 1 }

/-- Method `operator[]`: the referenced value together with the state after the call. -/
def index [Inhabited V] (Hash : K → Nat) (fuel : Nat) (m : hashmap K V) (key : K) :
    Option (V × hashmap K V) :=
  match find Hash m key with
  | some v => some (v, m)
  | none =>
    match insert Hash fuel m key default with
    | none => none
    | some m1 =>
      match find Hash m1 key with
      | none => none
      | some v => some (v, m1)

/-- The body of `insert` after the presence test and the capacity test: append to the bucket. -/
def insertPlain (Hash : K → Nat) (m : hashmap K V) (key : K) (val : V) : hashmap K V :=
  { m with
    table := m.table.set (Hash key % m.table_size)
      (m.table.getD (Hash key % m.table_size) [] ++ [⟨key, val⟩])
    map_size := m.map_size + 1 }

/-- Appending the entries `es` one after the other, without any capacity test. -/
def insertAll (Hash : K → Nat) (es : List (entry_t K V)) (acc : hashmap K V) : hashmap K V :=
  es.foldl (fun a e => insertPlain Hash a e.key e.val) acc

/-- All entries of the table, bucket after bucket. -/
def entries (m : hashmap K V) : List (entry_t K V) := m.table.flatten

/-- The table `rehash` builds: every entry appended to its bucket in a table twice as large. -/
def rehashed (Hash : K → Nat) (m : hashmap K V) : hashmap K V :=
  insertAll Hash (entries m) (hashmap.new (2 * m.table_size))

/-- Overwrite the value of the first entry of a bucket whose key is `key`. -/
def assignFirst (key : K) (val : V) : List (entry_t K V) → List (entry_t K V)
  | [] => []
  | e :: l => if e.key = key then ⟨e.key, val⟩ :: l else e :: assignFirst key val l

/-- A write through the reference that `operator[]` (or the pointer that `find`) returned for
`key`: only the value of that entry changes. -/
def store (Hash : K → Nat) (m : hashmap K V) (key : K) (val : V) : hashmap K V :=
  { m with
    table := m.table.set (Hash key % m.table_size)
      (assignFirst key val (m.table.getD (Hash key % m.table_size) [])) }

/-- States reachable from the constructor (table size at least 1) by `insert`, `remove`,
`operator[]` and writes through the references `operator[]` returns. -/
inductive Reachable [Inhabited V] (Hash : K → Nat) : hashmap K V → Prop
  | new (size : Nat) (h : 1 ≤ size) : Reachable Hash (hashmap.new size)
  | insert {m m2 : hashmap K V} (fuel : Nat) (k : K) (v : V) :
      Reachable Hash m → insert Hash fuel m k v = some m2 → Reachable Hash m2
  | remove {m : hashmap K V} (k : K) : Reachable Hash m → Reachable Hash (remove Hash m k)
  | index {m m2 : hashmap K V} (fuel : Nat) (k : K) (v : V) :
      Reachable Hash m → index Hash fuel m k = some (v, m2) → Reachable Hash m2
  | store {m : hashmap K V} (k : K) (v : V) :
      Reachable Hash m → Reachable Hash (store Hash m k v)

/-- The keys stored in the table. -/
def keys (m : hashmap K V) : List K := (entries m).map entry_t.key

/-- A hash function on `Nat` keys for the concrete instances: the key itself. -/
def idHash : Nat → Nat := fun k => k

/-- The map after `hashmap(1)` and `insert(0, 10)`: one bucket, full. -/
def demoFull : hashmap Nat Nat := ⟨[[⟨0, 10⟩]], 1, 1⟩

/-- The map after `hashmap(4)` and `insert(5, 50)`: four buckets, one entry. -/
def demoRoomy : hashmap Nat Nat := ⟨[[], [⟨5, 50⟩], [], []], 4, 1⟩

/-- Representation invariant of the table. -/
structure WF (Hash : K → Nat) (m : hashmap K V) : Prop where
  size_eq : m.table.length = m.table_size
  pos : 1 ≤ m.table_size
  count : m.map_size = ((m.table.map List.length).sum : Nat)
  cap : m.map_size ≤ (m.table_size : Int)
  placed : ∀ i, ∀ e ∈ m.table.getD i [], Hash e.key % m.table_size = i
  nodup : ∀ i, ((m.table.getD i []).map entry_t.key).Nodup

/-- The state `insert` reaches for an absent key. -/
def inserted (Hash : K → Nat) (m : hashmap K V) (k : K) (v : V) : hashmap K V :=
  if m.map_size ≥ (m.table_size : Int) then insertPlain Hash (rehashed Hash m) k v
  else insertPlain Hash m k v

/-- A run of `insert` calls, one after the other, for the listed (key, value) pairs. -/
def insertMany (Hash : K → Nat) (fuel : Nat) (m : hashmap K V) (ops : List (K × V)) :
    Option (hashmap K V) :=
  ops.foldlM (fun a e => insert Hash fuel a e.1 e.2) m

/-- States reachable from the constructor called with table size `size0` by `insert`,
`remove`, `operator[]` and writes through the references `operator[]` returns. -/
inductive ReachableFrom [Inhabited V] (Hash : K → Nat) (size0 : Nat) : hashmap K V → Prop
  | new : ReachableFrom Hash size0 (hashmap.new size0)
  | insert {m m2 : hashmap K V} (fuel : Nat) (k : K) (v : V) :
      ReachableFrom Hash size0 m → insert Hash fuel m k v = some m2 →
      ReachableFrom Hash size0 m2
  | remove {m : hashmap K V} (k : K) :
      ReachableFrom Hash size0 m → ReachableFrom Hash size0 (remove Hash m k)
  | index {m m2 : hashmap K V} (fuel : Nat) (k : K) (v : V) :
      ReachableFrom Hash size0 m → index Hash fuel m k = some (v, m2) →
      ReachableFrom Hash size0 m2
  | store {m : hashmap K V} (k : K) (v : V) :
      ReachableFrom Hash size0 m → ReachableFrom Hash size0 (store Hash m k v)

/-- The map after `hashmap(1)`, `insert(0, 10)`, `insert(1, 11)` (first rehash), `M[2]` (second
rehash), `insert(4, 14)` and `remove(1)`: four buckets, keys 0 and 4 chained in bucket 0,
key 2 in bucket 2. -/
def demoGrown : hashmap Nat Nat := ⟨[[⟨0, 10⟩, ⟨4, 14⟩], [], [⟨2, 0⟩], []], 4, 3⟩

/-- The map after `hashmap(2)`, `insert(0, 10)` and `insert(2, 12)`: both entries in bucket 0. -/
def demoChain : hashmap Nat Nat := ⟨[[⟨0, 10⟩, ⟨2, 12⟩], []], 2, 2⟩

/-- One output line `cout << M[a] << M[b]`: the two values read and the state afterwards. The
order in which the two `operator[]` calls run is left open by the language: `rightFirst`
picks it. -/
def output_line [Inhabited V] (Hash : K → Nat) (fuel : Nat) (rightFirst : Bool)
    (m : hashmap K V) (a b : K) : Option (V × V × hashmap K V) :=
  if rightFirst then
    (index Hash fuel m b).bind fun rb =>
    (index Hash fuel rb.2 a).bind fun ra => some (ra.1, rb.1, ra.2)
  else
    (index Hash fuel m a).bind fun ra =>
    (index Hash fuel ra.2 b).bind fun rb => some (ra.1, rb.1, rb.2)

/-- The statements of `main` on `hashmap<string, int, class_hash> M` (table size 1024). The
result lists what the reads give: `M["foo"]`, `M["bar"]`, `M["baz"]`, `M["qux"]`, then
`size()` before and after `remove("foo")`, then `M["foo"]` and `M["bar"]` again. -/
def main_demo (Hash : String → Nat) (fuel : Nat) (rightFirst : Bool) :
    Option (Int × Int × Int × Int × Int × Int × Int × Int) :=
  (index Hash fuel (hashmap.new 1024 : hashmap String Int) "foo").bind fun r0 =>
  (insert Hash fuel (store Hash r0.2 "foo" 1) "bar" 2).bind fun M1 =>
  (output_line Hash fuel rightFirst M1 "foo" "bar").bind fun l1 =>
  (output_line Hash fuel rightFirst l1.2.2 "baz" "qux").bind fun l2 =>
  (output_line Hash fuel rightFirst (remove Hash l2.2.2 "foo") "foo" "bar").bind fun l3 =>
  some (l1.1, l1.2.1, l2.1, l2.2.1, size l2.2.2, size (remove Hash l2.2.2 "foo"),
    l3.1, l3.2.1)

/-- A state together with what `find` and `size` give on it. -/
structure Tracks (Hash : String → Nat) (m : hashmap String Int) (f : String → Option Int)
    (n : Int) : Prop where
  wf : WF Hash m
  find_eq : ∀ k, find Hash m k = f k
  size_eq : size m = n

/-- The `unsigned int` overload of `class_hash::operator()`: Robert Jenkins' 32-bit mix. Values
are 32-bit: sums, products and left shifts are taken modulo 2^32, and `~key` is `key` with all
32 bits flipped. -/
def class_hash_uint (key : Nat) : Nat :=
  let key := ((key ^^^ 4294967295) + (key <<< 15) % 4294967296) % 4294967296
  let key := key ^^^ (key >>> 12)
  let key := (key + (key <<< 2) % 4294967296) % 4294967296
  let key := ((key ^^^ (key >>> 4)) * 2057) % 4294967296
  key ^^^ (key >>> 16)

end Hashmap

namespace Euler

theorem pairs_nil : pairs [] = [] := rfl

theorem pairs_single (a : Nat) : pairs [a] = [] := rfl

theorem pairs_cons_cons (a b : Nat) (l : List Nat) :
    pairs (a :: b :: l) = (a, b) :: pairs (b :: l) := rfl

theorem pairs_append_cons (A : List Nat) (p : Nat) (B : List Nat) :
    pairs (A ++ p :: B) = pairs (A ++ [p]) ++ pairs (p :: B) := by
  induction A with
  | nil => simp [pairs_single]
  | cons a A ih =>
    cases A with
    | nil => simp [pairs_cons_cons, pairs_single]
    | cons a2 A => 
      simp only [List.cons_append, pairs_cons_cons] at ih ⊢
      rw [ih]

theorem pairs_snoc_snoc (A : List Nat) (c v : Nat) :
    pairs (A ++ [c] ++ [v]) = pairs (A ++ [c]) ++ [(c, v)] := by
  rw [List.append_assoc, List.singleton_append, pairs_append_cons]
  simp [pairs_cons_cons, pairs_single]

theorem count_fst_pairs (c : Nat) (w : List Nat) :
    ((pairs w).map Prod.fst).count c + (if w.getLast? = some c then 1 else 0) = w.count c := by
  induction w with
  | nil => simp [pairs_nil]
  | cons a w ih =>
    cases w with
    | nil => 
      by_cases h : a = c <;> simp [pairs_single, h, List.count_cons]
    | cons b w =>
      rw [pairs_cons_cons, List.getLast?_cons_cons, List.map_cons, List.count_cons,
        List.count_cons c a (b :: w)]
      simp only [] at ih ⊢
      omega

theorem count_snd_pairs (c : Nat) (w : List Nat) :
    ((pairs w).map Prod.snd).count c + (if w.head? = some c then 1 else 0) = w.count c := by
  cases w with
  | nil => simp [pairs_nil]
  | cons a w =>
    have : (pairs (a :: w)).map Prod.snd = w := by
      induction w generalizing a with
      | nil => simp [pairs_single]
      | cons b w ih => rw [pairs_cons_cons, List.map_cons, ih]
    rw [this, List.count_cons]
    by_cases h : a = c <;> simp [h]

theorem length_pairs (w : List Nat) : (pairs w).length = w.length - 1 := by
  simp [pairs]

theorem mem_of_mem_pairs {a b : Nat} {w : List Nat} (h : (a, b) ∈ pairs w) : a ∈ w ∧ b ∈ w := by
  have := List.of_mem_zip h
  exact ⟨this.1, List.mem_of_mem_tail this.2⟩

theorem ecount_nil (e : Nat × Nat) : ecount e [] = 0 := rfl

theorem ecount_cons (e x : Nat × Nat) (l : List (Nat × Nat)) :
    ecount e (x :: l) = ecount e l + if x = e then 1 else 0 := by
  unfold ecount
  rw [List.countP_cons]
  simp

theorem ecount_append (e : Nat × Nat) (l₁ l₂ : List (Nat × Nat)) :
    ecount e (l₁ ++ l₂) = ecount e l₁ + ecount e l₂ := by
  unfold ecount
  exact List.countP_append _ _ _

theorem perm_of_ecount {l₁ l₂ : List (Nat × Nat)} (h : ∀ e, ecount e l₁ = ecount e l₂) :
    l₁.Perm l₂ :=
  List.perm_iff_count.2 h

theorem ecount_of_perm {l₁ l₂ : List (Nat × Nat)} (h : l₁.Perm l₂) (e : Nat × Nat) :
    ecount e l₁ = ecount e l₂ :=
  h.countP_eq _

theorem ecount_map_mk (x : Nat) (l : List Nat) (a b : Nat) :
    ecount (a, b) (l.map (fun y => (x, y))) = if a = x then l.count b else 0 := by
  induction l with
  | nil => simp [ecount_nil]
  | cons y l ih =>
    rw [List.map_cons, ecount_cons, ih, List.count_cons]
    by_cases h1 : a = x
    · by_cases h2 : y = b
      · simp [h1, h2]
      · simp [h1, h2]
    · have : ¬ x = a := fun h => h1 h.symm
      simp [h1, this]

/-- Counting an edge in the list produced from a duplicate-free list of sources. -/
theorem ecount_flatMap_src (f : Nat → List Nat) (l : List Nat) (hl : l.Nodup) (a b : Nat) :
    ecount (a, b) (l.flatMap (fun x => (f x).map (fun y => (x, y))))
      = if a ∈ l then (f a).count b else 0 := by
  induction l with
  | nil => simp [ecount_nil]
  | cons x l ih =>
    rw [List.flatMap_cons, ecount_append, ih (List.nodup_cons.1 hl).2, ecount_map_mk]
    have hx := (List.nodup_cons.1 hl).1
    by_cases hax : a = x
    · subst hax
      simp [hx]
    · simp [hax]

theorem ecount_usedEdges (adj : List (List Nat)) (cur : Nat → Nat) (a b : Nat) :
    ecount (a, b) (usedEdges adj cur)
      = if a < adj.length then ((adj.getD a []).take (cur a)).count b else 0 := by
  unfold usedEdges
  rw [ecount_flatMap_src (fun x => (adj.getD x []).take (cur x)) _ (List.nodup_range _)]
  simp

theorem ecount_edges (adj : List (List Nat)) (a b : Nat) :
    ecount (a, b) (edges adj) = if a < adj.length then (adj.getD a []).count b else 0 := by
  unfold edges
  rw [ecount_flatMap_src (fun x => adj.getD x []) _ (List.nodup_range _)]
  simp

theorem mem_edges {adj : List (List Nat)} {a b : Nat} :
    (a, b) ∈ edges adj ↔ a < adj.length ∧ b ∈ adj.getD a [] := by
  unfold edges
  simp only [List.mem_flatMap, List.mem_range, List.mem_map, Prod.mk.injEq]
  constructor
  · rintro ⟨x, hx, y, hy, rfl, rfl⟩
    exact ⟨hx, hy⟩
  · rintro ⟨h1, h2⟩
    exact ⟨a, h1, b, h2, rfl, rfl⟩

theorem count_fst_flatMap_src (f : Nat → List Nat) (l : List Nat) (hl : l.Nodup) (c : Nat) :
    ((l.flatMap (fun x => (f x).map (fun y => (x, y)))).map Prod.fst).count c
      = if c ∈ l then (f c).length else 0 := by
  induction l with
  | nil => simp
  | cons x l ih =>
    rw [List.flatMap_cons, List.map_append, List.count_append, ih (List.nodup_cons.1 hl).2]
    have hx := (List.nodup_cons.1 hl).1
    have hm : ((f x).map (fun y => (x, y))).map Prod.fst = List.replicate (f x).length x := by
      rw [List.map_map]
      apply List.ext_getElem <;> simp
    rw [hm, List.count_replicate]
    by_cases hcx : c = x
    · subst hcx
      simp [hx]
    · have : ¬ x = c := fun h => hcx h.symm
      simp [hcx, this]

theorem count_fst_usedEdges (adj : List (List Nat)) (cur : Nat → Nat) (c : Nat)
    (hc : c < adj.length) (hle : cur c ≤ (adj.getD c []).length) :
    ((usedEdges adj cur).map Prod.fst).count c = cur c := by
  unfold usedEdges
  rw [count_fst_flatMap_src (fun x => (adj.getD x []).take (cur x)) _ (List.nodup_range _)]
  simp only [List.mem_range, hc, if_true, List.length_take]
  omega

theorem outdeg_eq (adj : List (List Nat)) (c : Nat) (hc : c < adj.length) :
    outdeg adj c = (adj.getD c []).length := by
  unfold outdeg edges
  rw [count_fst_flatMap_src (fun x => adj.getD x []) _ (List.nodup_range _)]
  simp [hc]

theorem sublist_flatMap {β : Type} (f g : Nat → List β) (l : List Nat)
    (h : ∀ a, (f a).Sublist (g a)) : (l.flatMap f).Sublist (l.flatMap g) := by
  induction l with
  | nil => simp
  | cons x l ih =>
    rw [List.flatMap_cons, List.flatMap_cons]
    exact (h x).append ih

theorem usedEdges_sublist (adj : List (List Nat)) (cur : Nat → Nat) :
    (usedEdges adj cur).Sublist (edges adj) :=
  sublist_flatMap _ _ _ (fun _ => (List.take_sublist _ _).map _)

theorem count_snd_usedEdges_le (adj : List (List Nat)) (cur : Nat → Nat) (c : Nat) :
    ((usedEdges adj cur).map Prod.snd).count c ≤ indeg adj c :=
  ((usedEdges_sublist adj cur).map Prod.snd).count_le c

theorem length_usedEdges_le (adj : List (List Nat)) (cur : Nat → Nat) :
    (usedEdges adj cur).length ≤ (edges adj).length :=
  (usedEdges_sublist adj cur).length_le

theorem usedEdges_step (adj : List (List Nat)) (cur : Nat → Nat) (c : Nat)
    (hc : c < adj.length) (hlt : cur c < (adj.getD c []).length) :
    (usedEdges adj (Function.update cur c (cur c + 1))).Perm
      (usedEdges adj cur ++ [(c, (adj.getD c []).getD (cur c) 0)]) := by
  apply perm_of_ecount
  rintro ⟨a, b⟩
  rw [ecount_append, ecount_usedEdges, ecount_usedEdges, ecount_cons, ecount_nil]
  by_cases hac : a = c
  · subst hac
    simp only [hc, if_true, Function.update_same]
    generalize adj.getD a [] = l at hlt ⊢
    rw [List.take_succ, List.count_append, List.getD_eq_getElem?_getD,
      List.getElem?_eq_getElem hlt]
    simp only [Option.toList, Option.getD_some, List.count_cons, List.count_nil, beq_iff_eq,
      Prod.mk.injEq, true_and]
  · have : ¬ c = a := fun h => hac h.symm
    simp [Function.update_noteq hac, this]

theorem usedEdges_eq_edges (adj : List (List Nat)) (cur : Nat → Nat)
    (h : ∀ a, a < adj.length → (adj.getD a []).length ≤ cur a) :
    usedEdges adj cur = edges adj := by
  unfold usedEdges edges
  apply List.flatMap_congr
  intro a ha
  rw [List.take_of_length_le (h a (List.mem_range.1 ha))]

/-- At a vertex whose out-edges are exhausted, the open walk must have closed up. -/
theorem stuck_closes (adj : List (List Nat)) (cur : Nat → Nat) (w1 w2 : List Nat)
    (start c p : Nat)
    (hperm : (pairs w1 ++ pairs w2).Perm (usedEdges adj cur))
    (h1h : w1.head? = some start) (h1l : w1.getLast? = some c)
    (h2h : w2.head? = some p) (h2l : w2.getLast? = some start)
    (hc : c < adj.length) (hle : cur c ≤ (adj.getD c []).length)
    (hfull : cur c = (adj.getD c []).length)
    (hbal : indeg adj c = outdeg adj c) : c = p := by
  have ho := (hperm.map Prod.fst).count_eq c
  have hi := (hperm.map Prod.snd).count_eq c
  rw [count_fst_usedEdges adj cur c hc hle, List.map_append, List.count_append] at ho
  rw [List.map_append, List.count_append] at hi
  have hil := count_snd_usedEdges_le adj cur c
  rw [hbal, outdeg_eq adj c hc] at hil
  have a1 := count_fst_pairs c w1
  have a2 := count_snd_pairs c w1
  have a3 := count_fst_pairs c w2
  have a4 := count_snd_pairs c w2
  rw [h1l] at a1
  rw [h1h] at a2
  rw [h2l] at a3
  rw [h2h] at a4
  by_contra hne
  have hne2 : ¬ p = c := fun h => hne h.symm
  simp only [Option.some.injEq, hne2, if_true, if_false] at a1 a2 a3 a4
  split_ifs at a2 a3 <;> omega

theorem getD_mem (l : List Nat) (n d : Nat) (h : n < l.length) : l.getD n d ∈ l := by
  rw [List.getD_eq_getElem?_getD, List.getElem?_eq_getElem h]
  exact List.getElem_mem _

theorem getD_mem_list (adj : List (List Nat)) (a : Nat) (h : a < adj.length) :
    adj.getD a [] ∈ adj := by
  rw [List.getD_eq_getElem?_getD, List.getElem?_eq_getElem h]
  exact List.getElem_mem _

theorem directed_walk_spec (adj : List (List Nat)) (hV : adj.length ≤ MAXN)
    (hvalid : ValidAdj adj) (start p : Nat) (rr : List Nat) :
    ∀ (fuel : Nat) (cur : Nat → Nat) (stack : List Nat) (c : Nat),
      WalkInv adj start p rr cur stack c →
      (edges adj).length - (usedEdges adj cur).length < fuel →
      ∃ cur2 stack2 c2, directed_walk adj fuel cur stack c = some (cur2, stack2, c2)
        ∧ WalkInv adj start p rr cur2 stack2 c2
        ∧ cur2 c2 = (adj.getD c2 []).length
        ∧ stack2.length + ((edges adj).length - (usedEdges adj cur2).length)
            = stack.length + ((edges adj).length - (usedEdges adj cur).length) := by
  intro fuel
  induction fuel with
  | zero => intro cur stack c _ h; omega
  | succ fuel ih =>
    intro cur stack c inv hfuel
    have hb : c < MAXN ∧ c < adj.length := ⟨by have := inv.bound; omega, inv.bound⟩
    by_cases hlt : cur c < (adj.getD c []).length
    · have hstep := usedEdges_step adj cur c inv.bound hlt
      have hlen := hstep.length_eq
      rw [List.length_append, List.length_singleton] at hlen
      have hle2 := length_usedEdges_le adj (Function.update cur c (cur c + 1))
      have hv : (adj.getD c []).getD (cur c) 0 < adj.length := by
        apply hvalid c
        rw [mem_edges]
        refine ⟨inv.bound, ?_⟩
        exact getD_mem _ _ _ hlt
      have inv2 : WalkInv adj start p rr (Function.update cur c (cur c + 1)) (c :: stack)
          ((adj.getD c []).getD (cur c) 0) := by
        refine ⟨hv, ?_, ?_, ?_, ?_, inv.last, ?_⟩
        · intro x hx
          rcases List.mem_cons.1 hx with rfl | hx
          · exact inv.bound
          · exact inv.sbound x hx
        · intro a
          by_cases hac : a = c
          · subst hac; rw [Function.update_same]; omega
          · rw [Function.update_noteq hac]; exact inv.le a
        · rw [List.reverse_cons, pairs_snoc_snoc]
          refine List.Perm.trans ?_ hstep.symm
          refine List.Perm.trans ?_ (List.Perm.append_right _ inv.perm)
          rw [List.append_assoc, List.append_assoc]
          exact List.Perm.append_left _ List.perm_append_comm
        · rw [List.reverse_cons, List.head?_append_of_ne_nil _ (by simp)]
          exact inv.head
        · intro x hx
          have hxc : x ≠ c := by
            rintro rfl
            have := inv.fin x hx
            omega
          rw [Function.update_noteq hxc]
          exact inv.fin x hx
      obtain ⟨cur2, stack2, c2, he, inv3, hfull, hm⟩ :=
        ih (Function.update cur c (cur c + 1)) (c :: stack) _ inv2 (by omega)
      refine ⟨cur2, stack2, c2, ?_, inv3, hfull, ?_⟩
      · rw [directed_walk, if_pos hb, if_pos hlt]
        exact he
      · rw [hm, List.length_cons]
        omega
    · refine ⟨cur, stack, c, ?_, inv, ?_, rfl⟩
      · rw [directed_walk, if_pos hb, if_neg hlt]
      · have := inv.le c
        omega

theorem directed_walk_mono (adj : List (List Nat)) :
    ∀ (fuel : Nat) (cur : Nat → Nat) (stack : List Nat) (c : Nat)
      (r : (Nat → Nat) × List Nat × Nat),
      directed_walk adj fuel cur stack c = some r →
      ∀ fuel2, fuel ≤ fuel2 → directed_walk adj fuel2 cur stack c = some r := by
  intro fuel
  induction fuel with
  | zero => intro cur stack c r h; simp [directed_walk] at h
  | succ fuel ih =>
    intro cur stack c r h fuel2 hle
    obtain ⟨f, rfl⟩ : ∃ f, fuel2 = f + 1 := ⟨fuel2 - 1, by omega⟩
    rw [directed_walk] at h ⊢
    split_ifs at h ⊢ with h1 h2
    · exact ih _ _ _ _ h f (by omega)
    · exact h

theorem directed_loop_mono (adj : List (List Nat)) :
    ∀ (fuel : Nat) (cur : Nat → Nat) (stack res out : List Nat),
      directed_loop adj fuel cur stack res = some out →
      ∀ fuel2, fuel ≤ fuel2 → directed_loop adj fuel2 cur stack res = some out := by
  intro fuel
  induction fuel with
  | zero => intro cur stack res out h; simp [directed_loop] at h
  | succ fuel ih =>
    intro cur stack res out h fuel2 hle
    obtain ⟨f, rfl⟩ : ∃ f, fuel2 = f + 1 := ⟨fuel2 - 1, by omega⟩
    cases stack with
    | nil => simpa [directed_loop] using h
    | cons p stack =>
      rw [directed_loop] at h ⊢
      cases hw : directed_walk adj fuel cur stack p with
      | none => simp [hw] at h
      | some r =>
        obtain ⟨cur2, stack2, c2⟩ := r
        rw [directed_walk_mono adj fuel cur stack p _ hw f (by omega)]
        simp only [hw] at h ⊢
        exact ih _ _ _ _ h f (by omega)

theorem directed_loop_spec (adj : List (List Nat)) (hV : adj.length ≤ MAXN)
    (hvalid : ValidAdj adj) (hbal : ∀ v, v < adj.length → indeg adj v = outdeg adj v)
    (start : Nat) :
    ∀ (fuel : Nat) (cur : Nat → Nat) (stack rr : List Nat),
      LoopInv adj start cur stack rr →
      stack.length + ((edges adj).length - (usedEdges adj cur).length) < fuel →
      ∃ cur2 rr2, directed_loop adj fuel cur stack rr.reverse = some rr2.reverse
        ∧ LoopInv adj start cur2 [] rr2 := by
  intro fuel
  induction fuel with
  | zero => intro cur stack rr _ h; omega
  | succ fuel ih =>
    intro cur stack rr inv hfuel
    cases stack with
    | nil => exact ⟨cur, rr, by simp [directed_loop], inv⟩
    | cons p stack =>
      have hsplit : (p :: stack).reverse ++ rr = stack.reverse ++ p :: rr := by simp
      have winv : WalkInv adj start p rr cur stack p := by
        refine ⟨inv.bound p (List.mem_cons_self _ _),
          fun x hx => inv.bound x (List.mem_cons_of_mem _ hx), inv.le, ?_, ?_, ?_, inv.fin⟩
        · rw [← pairs_append_cons, ← hsplit]
          exact inv.perm
        · have := inv.head
          rw [List.reverse_cons, List.head?_append_of_ne_nil _ (by simp)] at this
          exact this
        · have := inv.last
          rw [hsplit, List.getLast?_append_of_ne_nil _ (by simp)] at this
          exact this
      rw [List.length_cons] at hfuel
      obtain ⟨cur2, stack2, c2, he, winv2, hfull, hm⟩ :=
        directed_walk_spec adj hV hvalid start p rr fuel cur stack p winv (by omega)
      have hcp : c2 = p :=
        stuck_closes adj cur2 (stack2.reverse ++ [c2]) (p :: rr) start c2 p winv2.perm
          winv2.head (by simp) (by simp) winv2.last winv2.bound (winv2.le c2) hfull
          (hbal c2 winv2.bound)
      have inv2 : LoopInv adj start cur2 stack2 (c2 :: rr) := by
        refine ⟨winv2.sbound, winv2.le, ?_, ?_, ?_, ?_⟩
        · rw [pairs_append_cons]
          have := winv2.perm
          rw [← hcp] at this
          exact this
        · have : stack2.reverse ++ c2 :: rr = (stack2.reverse ++ [c2]) ++ rr := by simp
          rw [this, List.head?_append_of_ne_nil _ (by simp)]
          exact winv2.head
        · rw [List.getLast?_append_of_ne_nil _ (by simp), hcp]
          exact winv2.last
        · intro x hx
          rcases List.mem_cons.1 hx with rfl | hx
          · exact hfull
          · exact winv2.fin x hx
      obtain ⟨cur3, rr3, he3, inv3⟩ := ih cur2 stack2 (c2 :: rr) inv2 (by omega)
      refine ⟨cur3, rr3, ?_, inv3⟩
      rw [directed_loop]
      simp only [he]
      rw [List.reverse_cons] at he3
      exact he3

theorem mem_usedEdges {adj : List (List Nat)} {cur : Nat → Nat} {a b : Nat} :
    (a, b) ∈ usedEdges adj cur ↔ a < adj.length ∧ b ∈ (adj.getD a []).take (cur a) := by
  unfold usedEdges
  simp only [List.mem_flatMap, List.mem_range, List.mem_map, Prod.mk.injEq]
  constructor
  · rintro ⟨x, hx, y, hy, rfl, rfl⟩
    exact ⟨hx, hy⟩
  · rintro ⟨h1, h2⟩
    exact ⟨a, h1, b, h2, rfl, rfl⟩

theorem reach_mem_of_final (adj : List (List Nat)) (start : Nat) (cur : Nat → Nat)
    (rr : List Nat) (inv : LoopInv adj start cur [] rr) (x : Nat) (h : Reach adj start x) :
    x ∈ rr := by
  induction h with
  | refl =>
    have := inv.head
    simp only [List.reverse_nil, List.nil_append] at this
    exact List.mem_of_mem_head? this
  | @tail y z _ hyz ih =>
    have hy := inv.fin y ih
    have hu : (y, z) ∈ usedEdges adj cur := by
      rw [mem_usedEdges, hy, List.take_length]
      exact mem_edges.1 hyz
    have hp : (y, z) ∈ pairs rr := by
      have := inv.perm.mem_iff.2 hu
      simpa using this
    exact (mem_of_mem_pairs hp).2

theorem final_all_used (adj : List (List Nat)) (start : Nat) (cur : Nat → Nat)
    (rr : List Nat) (inv : LoopInv adj start cur [] rr)
    (hconn : ∀ a, a < adj.length → adj.getD a [] ≠ [] → Reach adj start a) :
    (pairs rr).Perm (edges adj) := by
  have h := inv.perm
  simp only [List.reverse_nil, List.nil_append] at h
  rw [usedEdges_eq_edges adj cur] at h
  · exact h
  · intro a ha
    by_cases hne : adj.getD a [] = []
    · rw [hne]; simp
    · exact le_of_eq (inv.fin a (reach_mem_of_final adj start cur rr inv a (hconn a ha hne))).symm

theorem directed_correct_aux (adj : List (List Nat)) (nodes u : Nat)
    (hV : adj.length ≤ MAXN)
    (hvalid : ∀ a b, (a, b) ∈ edges adj → b < adj.length)
    (hbal : ∀ v, v < adj.length → indeg adj v = outdeg adj v)
    (hscc : ∀ a b, a < adj.length → b < adj.length → indeg adj a + outdeg adj a ≠ 0 →
      indeg adj b + outdeg adj b ≠ 0 → Reach adj a b)
    (hu : u < adj.length)
    (hstart : indeg adj u + outdeg adj u ≠ 0 ∨ edges adj = []) :
    ∃ res : List Nat,
      (∀ fuel, (edges adj).length + 2 ≤ fuel → euler_cycle_directed fuel adj nodes u = some res)
      ∧ res.length = (edges adj).length + 1
      ∧ res.head? = some u ∧ res.getLast? = some u
      ∧ (↑(pairs res) : Multiset (Nat × Nat)) = ↑(edges adj) := by
  have inv0 : LoopInv adj u (fun _ => 0) [u] [] := by
    refine ⟨?_, fun _ => Nat.zero_le _, ?_, by simp, by simp, by simp⟩
    · intro x hx
      rw [List.mem_singleton.1 hx]
      exact hu
    · have : usedEdges adj (fun _ => 0) = [] := by
        unfold usedEdges
        simp
      rw [this]
      simp [pairs_single]
  obtain ⟨cur2, rr, he, inv⟩ :=
    directed_loop_spec adj hV hvalid hbal u ((edges adj).length + 2) (fun _ => 0) [u] [] inv0
      (by simp only [List.length_singleton]; omega)
  have hconn : ∀ a, a < adj.length → adj.getD a [] ≠ [] → Reach adj u a := by
    intro a ha hne
    have hda : outdeg adj a ≠ 0 := by
      rw [outdeg_eq adj a ha]
      exact fun h => hne (List.length_eq_zero.1 h)
    rcases hstart with h | h
    · exact hscc u a hu ha h (by omega)
    · exfalso
      apply hda
      unfold outdeg
      rw [h]
      rfl
  have hperm := final_all_used adj u cur2 rr inv hconn
  have hhead := inv.head
  have hlast := inv.last
  simp only [List.reverse_nil, List.nil_append] at hhead hlast
  refine ⟨rr, ?_, ?_, hhead, hlast, Multiset.coe_eq_coe.2 hperm⟩
  · intro fuel hf
    unfold euler_cycle_directed
    rw [List.reverse_nil] at he
    rw [directed_loop_mono adj _ _ _ _ _ he fuel hf]
    simp
  · have h1 := hperm.length_eq
    rw [length_pairs] at h1
    have h2 : rr ≠ [] := by
      intro h
      rw [h] at hhead
      simp at hhead
    have h3 := List.length_pos.2 h2
    omega

theorem reach_of_walk (adj : List (List Nat)) (a : Nat) (w : List Nat)
    (h : ∀ e ∈ pairs (a :: w), e ∈ edges adj) :
    Reach adj a ((a :: w).getLast (List.cons_ne_nil a w)) := by
  induction w generalizing a with
  | nil => exact Relation.ReflTransGen.refl
  | cons b w ih =>
    have h1 : (a, b) ∈ edges adj := h _ (by simp [pairs_cons_cons])
    have h2 := ih b (fun e he => h e (by rw [pairs_cons_cons]; exact List.mem_cons_of_mem _ he))
    rw [List.getLast_cons (List.cons_ne_nil b w)]
    exact Relation.ReflTransGen.head h1 h2

theorem g1_reach (a b : Nat) (ha : a < 5) (hb : b < 5) : Reach g1 a b := by
  have to0 : Reach g1 a 0 := by
    interval_cases a
    · exact reach_of_walk g1 0 [] (by decide)
    · exact reach_of_walk g1 1 [2, 0] (by decide)
    · exact reach_of_walk g1 2 [0] (by decide)
    · exact reach_of_walk g1 3 [4, 1, 2, 0] (by decide)
    · exact reach_of_walk g1 4 [1, 2, 0] (by decide)
  have from0 : Reach g1 0 b := by
    interval_cases b
    · exact reach_of_walk g1 0 [] (by decide)
    · exact reach_of_walk g1 0 [1] (by decide)
    · exact reach_of_walk g1 0 [1, 2] (by decide)
    · exact reach_of_walk g1 0 [1, 3] (by decide)
    · exact reach_of_walk g1 0 [1, 3, 4] (by decide)
  exact Relation.ReflTransGen.trans to0 from0

/-- C1: on every directed multigraph with balanced degrees whose vertices of nonzero degree
are mutually reachable, `euler_cycle_directed` started at a vertex of nonzero degree (or at
any vertex when there are no edges) returns, for every fuel of at least `E + 2`, one sequence
of `E + 1` vertices that starts and ends at the start vertex and whose consecutive pairs are,
as a multiset, exactly the directed edges. -/
theorem euler_cycle_directed_correct (adj : List (List Nat)) (nodes u : Nat)
    (hV : adj.length ≤ MAXN)
    (hvalid : ∀ l ∈ adj, ∀ b ∈ l, b < adj.length)
    (hbal : ∀ v, v < adj.length → indeg adj v = outdeg adj v)
    (hscc : ∀ a b, a < adj.length → b < adj.length → indeg adj a + outdeg adj a ≠ 0 →
      indeg adj b + outdeg adj b ≠ 0 → Reach adj a b ∧ Reach adj b a)
    (hu : u < adj.length)
    (hstart : indeg adj u + outdeg adj u ≠ 0 ∨ edges adj = []) :
    ∃ res : List Nat,
      (∀ fuel, (edges adj).length + 2 ≤ fuel → euler_cycle_directed fuel adj nodes u = some res)
      ∧ res.length = (edges adj).length + 1
      ∧ res.head? = some u ∧ res.getLast? = some u
      ∧ (↑(pairs res) : Multiset (Nat × Nat)) = ↑(edges adj) := by
  refine directed_correct_aux adj nodes u hV ?_ hbal
    (fun a b ha hb h1 h2 => (hscc a b ha hb h1 h2).1) hu hstart
  intro a b hab
  obtain ⟨ha, hb⟩ := mem_edges.1 hab
  refine hvalid (adj.getD a []) ?_ b hb
  exact getD_mem_list adj a ha

theorem euler_cycle_directed_sample :
    ∃ res : List Nat,
      (∀ fuel, 8 ≤ fuel → euler_cycle_directed fuel g1 5 0 = some res)
      ∧ res = [0, 1, 3, 4, 1, 2, 0]
      ∧ res.length = 7 ∧ res.head? = some 0 ∧ res.getLast? = some 0
      ∧ (↑(pairs res) : Multiset (Nat × Nat)) = ↑(edges g1) := by
  obtain ⟨res, h1, h2, h3, h4, h5⟩ := euler_cycle_directed_correct g1 5 0 (by decide)
    (by decide) (by decide)
    (fun a b ha hb _ _ => ⟨g1_reach a b ha hb, g1_reach b a hb ha⟩) (by decide)
    (Or.inl (by decide))
  refine ⟨res, h1, ?_, h2, h3, h4, h5⟩
  have h := h1 8 (le_refl 8)
  have h8 : euler_cycle_directed 8 g1 5 0 = some [0, 1, 3, 4, 1, 2, 0] := by decide
  rw [h8] at h
  exact (Option.some.inj h).symm

theorem TravInv.of_perm {adj : List (List Nat)} {cur : Nat → Nat} {used : Nat → Nat → Bool}
    {P Q : List (Nat × Nat)} (h : TravInv adj cur used P) (hp : P.Perm Q) :
    TravInv adj cur used Q := by
  have hm := hp.map upair
  refine ⟨h.le, fun e he => h.isEdge e (hp.mem_iff.2 he), hm.nodup_iff.1 h.nodup, ?_, ?_⟩
  · intro x y
    rw [h.usedIff x y]
    exact hm.mem_iff
  · intro e he
    exact hm.mem_iff.1 (h.scanned e he)

theorem mem_usedEdges_step (adj : List (List Nat)) (cur : Nat → Nat) (c : Nat)
    (hc : c < adj.length) (hlt : cur c < (adj.getD c []).length) (e : Nat × Nat) :
    e ∈ usedEdges adj (Function.update cur c (cur c + 1)) ↔
      e ∈ usedEdges adj cur ∨ e = (c, (adj.getD c []).getD (cur c) 0) := by
  rw [(usedEdges_step adj cur c hc hlt).mem_iff]
  simp

theorem TravInv.take {adj : List (List Nat)} {cur : Nat → Nat} {used : Nat → Nat → Bool}
    {P : List (Nat × Nat)} (h : TravInv adj cur used P) (c : Nat)
    (hc : c < adj.length) (hlt : cur c < (adj.getD c []).length)
    (hun : used (min c ((adj.getD c []).getD (cur c) 0))
      (max c ((adj.getD c []).getD (cur c) 0)) = false) :
    TravInv adj (Function.update cur c (cur c + 1))
      (Function.update used (min c ((adj.getD c []).getD (cur c) 0))
        (Function.update (used (min c ((adj.getD c []).getD (cur c) 0)))
          (max c ((adj.getD c []).getD (cur c) 0)) true))
      ((c, (adj.getD c []).getD (cur c) 0) :: P) := by
  generalize hv : (adj.getD c []).getD (cur c) 0 = v at hun ⊢
  have hvm : v ∈ adj.getD c [] := by rw [← hv]; exact getD_mem _ _ _ hlt
  have hnew : upair (c, v) ∉ P.map upair := by
    intro hm
    have := (h.usedIff (min c v) (max c v)).2 hm
    rw [hun] at this
    exact Bool.false_ne_true this
  refine ⟨?_, ?_, ?_, ?_, ?_⟩
  · intro a
    by_cases hac : a = c
    · subst hac; rw [Function.update_same]; omega
    · rw [Function.update_noteq hac]; exact h.le a
  · intro e he
    rcases List.mem_cons.1 he with rfl | he
    · exact mem_edges.2 ⟨hc, hvm⟩
    · exact h.isEdge e he
  · rw [List.map_cons]
    exact List.nodup_cons.2 ⟨hnew, h.nodup⟩
  · intro x y
    rw [List.map_cons, List.mem_cons, ← h.usedIff x y]
    by_cases hx : x = min c v
    · subst hx
      rw [Function.update_same]
      by_cases hy : y = max c v
      · subst hy
        simp [upair]
      · rw [Function.update_noteq hy]
        simp [upair, hy]
    · rw [Function.update_noteq hx]
      simp [upair, hx]
  · intro e he
    rw [List.map_cons, List.mem_cons]
    rcases (mem_usedEdges_step adj cur c hc hlt e).1 he with he | he
    · exact Or.inr (h.scanned e he)
    · left; rw [he, hv]

theorem TravInv.skip {adj : List (List Nat)} {cur : Nat → Nat} {used : Nat → Nat → Bool}
    {P : List (Nat × Nat)} (h : TravInv adj cur used P) (c : Nat)
    (hc : c < adj.length) (hlt : cur c < (adj.getD c []).length)
    (hun : used (min c ((adj.getD c []).getD (cur c) 0))
      (max c ((adj.getD c []).getD (cur c) 0)) = true) :
    TravInv adj (Function.update cur c (cur c + 1)) used P := by
  refine ⟨?_, h.isEdge, h.nodup, h.usedIff, ?_⟩
  · intro a
    by_cases hac : a = c
    · subst hac; rw [Function.update_same]; omega
    · rw [Function.update_noteq hac]; exact h.le a
  · intro e he
    rcases (mem_usedEdges_step adj cur c hc hlt e).1 he with he | he
    · exact h.scanned e he
    · rw [he]
      exact (h.usedIff _ _).1 hun

theorem count_fst_add_snd (P : List (Nat × Nat)) (c : Nat) (h : ∀ e ∈ P, e.1 ≠ e.2) :
    (P.map Prod.fst).count c + (P.map Prod.snd).count c
      = (P.filter (fun e => decide (e.1 = c ∨ e.2 = c))).length := by
  induction P with
  | nil => simp
  | cons e P ih =>
    have ih2 := ih (fun x hx => h x (List.mem_cons_of_mem _ hx))
    have hne := h e (List.mem_cons_self _ _)
    rw [List.map_cons, List.map_cons, List.count_cons, List.count_cons, List.filter_cons]
    by_cases h1 : e.1 = c
    · have h2 : ¬ e.2 = c := fun h2 => hne (h1.trans h2.symm)
      simp only [h1, h2, beq_self_eq_true, if_true, true_or, decide_True, List.length_cons,
        beq_iff_eq, if_false]
      omega
    · by_cases h2 : e.2 = c
      · simp only [h1, h2, beq_self_eq_true, if_true, or_true, decide_True, List.length_cons,
          beq_iff_eq, if_false]
        omega
      · simp only [h1, h2, beq_iff_eq, if_false, or_self, decide_False, Bool.false_eq_true]
        omega

theorem upair_comm (a b : Nat) : upair (a, b) = upair (b, a) := by
  simp [upair, Nat.min_comm, Nat.max_comm]

theorem upair_eq_iff (a b x y : Nat) :
    upair (a, b) = upair (x, y) ↔ (a = x ∧ b = y) ∨ (a = y ∧ b = x) := by
  simp only [upair, Prod.mk.injEq]
  omega

theorem TravInv.incident_count {adj : List (List Nat)} {cur : Nat → Nat}
    {used : Nat → Nat → Bool} {P : List (Nat × Nat)} (h : TravInv adj cur used P)
    (hsym : ∀ a b, (a, b) ∈ edges adj → (b, a) ∈ edges adj)
    (hloop : ∀ a, (a, a) ∉ edges adj)
    (c : Nat) (hc : c < adj.length) (hnd : (adj.getD c []).Nodup)
    (hfull : cur c = (adj.getD c []).length) :
    (P.map Prod.fst).count c + (P.map Prod.snd).count c = (adj.getD c []).length := by
  have hne : ∀ e ∈ P, e.1 ≠ e.2 := by
    rintro ⟨a, b⟩ he hab
    simp only at hab
    subst hab
    exact hloop a (h.isEdge _ he)
  rw [count_fst_add_snd P c hne]
  have hF : ∀ e ∈ P.filter (fun e => decide (e.1 = c ∨ e.2 = c)),
      upair e = upair (c, if e.1 = c then e.2 else e.1) := by
    rintro ⟨a, b⟩ he
    have hinc := (List.mem_filter.1 he).2
    simp only [decide_eq_true_eq] at hinc
    by_cases h1 : a = c
    · simp [h1]
    · have h2 : b = c := by
        rcases hinc with h | h
        · exact absurd h h1
        · exact h
      simp only [h1, if_false, h2]
      exact upair_comm a c
  have hnodupF : ((P.filter (fun e => decide (e.1 = c ∨ e.2 = c))).map
      (fun e => if e.1 = c then e.2 else e.1)).Nodup := by
    have h1 : ((P.filter (fun e => decide (e.1 = c ∨ e.2 = c))).map upair).Nodup :=
      List.Nodup.sublist ((List.filter_sublist P).map upair) h.nodup
    rw [List.map_congr_left hF] at h1
    have h2 : (List.map (fun e : Nat × Nat => upair (c, if e.1 = c then e.2 else e.1))
        (P.filter (fun e => decide (e.1 = c ∨ e.2 = c))))
        = List.map (fun x => upair (c, x))
          ((P.filter (fun e => decide (e.1 = c ∨ e.2 = c))).map
            (fun e => if e.1 = c then e.2 else e.1)) := by
      rw [List.map_map]
      rfl
    rw [h2] at h1
    exact List.Nodup.of_map _ h1
  have hperm : ((P.filter (fun e => decide (e.1 = c ∨ e.2 = c))).map
      (fun e => if e.1 = c then e.2 else e.1)).Perm (adj.getD c []) := by
    rw [List.perm_ext_iff_of_nodup hnodupF hnd]
    intro x
    constructor
    · intro hx
      obtain ⟨⟨a, b⟩, he, hx⟩ := List.mem_map.1 hx
      obtain ⟨heP, hinc⟩ := List.mem_filter.1 he
      simp only [decide_eq_true_eq] at hinc
      have hedge := h.isEdge _ heP
      by_cases h1 : a = c
      · simp only [h1, if_true] at hx
        subst hx
        rw [h1] at hedge
        exact (mem_edges.1 hedge).2
      · simp only [h1, if_false] at hx
        have h2 : b = c := by
          rcases hinc with h | h
          · exact absurd h h1
          · exact h
        subst hx
        rw [h2] at hedge
        exact (mem_edges.1 (hsym _ _ hedge)).2
    · intro hx
      have hu : (c, x) ∈ usedEdges adj cur := by
        rw [mem_usedEdges, hfull, List.take_length]
        exact ⟨hc, hx⟩
      obtain ⟨⟨a, b⟩, heP, hab⟩ := List.mem_map.1 (h.scanned _ hu)
      have hcx : c ≠ x := by
        rintro rfl
        exact hloop c (mem_edges.2 ⟨hc, hx⟩)
      rw [List.mem_map]
      refine ⟨(a, b), List.mem_filter.2 ⟨heP, ?_⟩, ?_⟩
      · rcases (upair_eq_iff a b c x).1 hab with ⟨h1, _⟩ | ⟨_, h2⟩
        · simp [h1]
        · simp [h2]
      · rcases (upair_eq_iff a b c x).1 hab with ⟨h1, h2⟩ | ⟨h1, h2⟩
        · simp [h1, h2]
        · have : ¬ a = c := by rw [h1]; exact fun h => hcx h.symm
          simp only [this, if_false]
          exact h1
  have := hperm.length_eq
  rw [List.length_map] at this
  exact this

theorem ustuck_closes (adj : List (List Nat)) (w1 w2 : List Nat) (start c p : Nat)
    (hcount : ((pairs w1 ++ pairs w2).map Prod.fst).count c
      + ((pairs w1 ++ pairs w2).map Prod.snd).count c = (adj.getD c []).length)
    (h1h : w1.head? = some start) (h1l : w1.getLast? = some c)
    (h2h : w2.head? = some p) (h2l : w2.getLast? = some start)
    (heven : Even (adj.getD c []).length) : c = p := by
  rw [List.map_append, List.count_append, List.map_append, List.count_append] at hcount
  have a1 := count_fst_pairs c w1
  have a2 := count_snd_pairs c w1
  have a3 := count_fst_pairs c w2
  have a4 := count_snd_pairs c w2
  rw [h1l] at a1
  rw [h1h] at a2
  rw [h2l] at a3
  rw [h2h] at a4
  obtain ⟨k, hk⟩ := heven
  by_contra hne
  have hne2 : ¬ p = c := fun h => hne h.symm
  simp only [Option.some.injEq, hne2, if_true, if_false] at a1 a2 a3 a4
  split_ifs at a2 a3 <;> omega

theorem undirected_walk_spec (adj : List (List Nat)) (hV : adj.length ≤ MAXN)
    (hvalid : ValidAdj adj) (start p : Nat) (rr : List Nat) :
    ∀ (fuel : Nat) (cur : Nat → Nat) (used : Nat → Nat → Bool) (stack : List Nat) (c : Nat),
      UWalkInv adj start p rr cur used stack c →
      (edges adj).length - (usedEdges adj cur).length < fuel →
      ∃ cur2 used2 stack2 c2,
        undirected_walk adj fuel cur used stack c = some (cur2, used2, stack2, c2)
        ∧ UWalkInv adj start p rr cur2 used2 stack2 c2
        ∧ cur2 c2 = (adj.getD c2 []).length
        ∧ stack2.length + ((edges adj).length - (usedEdges adj cur2).length)
            ≤ stack.length + ((edges adj).length - (usedEdges adj cur).length) := by
  intro fuel
  induction fuel with
  | zero => intro cur used stack c _ h; omega
  | succ fuel ih =>
    intro cur used stack c inv hfuel
    have hb : c < MAXN ∧ c < adj.length := ⟨by have := inv.bound; omega, inv.bound⟩
    by_cases hlt : cur c < (adj.getD c []).length
    · have hstep := usedEdges_step adj cur c inv.bound hlt
      have hlen := hstep.length_eq
      rw [List.length_append, List.length_singleton] at hlen
      have hle2 := length_usedEdges_le adj (Function.update cur c (cur c + 1))
      have hv : (adj.getD c []).getD (cur c) 0 < adj.length := by
        apply hvalid c
        rw [mem_edges]
        exact ⟨inv.bound, getD_mem _ _ _ hlt⟩
      have hmax : max c ((adj.getD c []).getD (cur c) 0) < MAXN := by
        have := inv.bound
        rw [Nat.max_def]
        split_ifs <;> omega
      by_cases hused : used (min c ((adj.getD c []).getD (cur c) 0))
          (max c ((adj.getD c []).getD (cur c) 0)) = true
      · have inv2 : UWalkInv adj start p rr (Function.update cur c (cur c + 1)) used stack c := by
          refine ⟨inv.bound, inv.sbound, inv.trav.skip c inv.bound hlt hused, inv.head,
            inv.last, ?_⟩
          intro x hx
          have hxc : x ≠ c := by
            rintro rfl
            have := inv.fin x hx
            omega
          rw [Function.update_noteq hxc]
          exact inv.fin x hx
        obtain ⟨cur2, used2, stack2, c2, he, inv3, hfull, hm⟩ :=
          ih (Function.update cur c (cur c + 1)) used stack c inv2 (by omega)
        refine ⟨cur2, used2, stack2, c2, ?_, inv3, hfull, by omega⟩
        rw [undirected_walk, if_pos hb, if_pos hlt]
        simp only [if_pos hmax, hused, Bool.not_true, Bool.false_eq_true, if_false]
        exact he
      · have hun : used (min c ((adj.getD c []).getD (cur c) 0))
            (max c ((adj.getD c []).getD (cur c) 0)) = false := by
          simpa using hused
        have inv2 : UWalkInv adj start p rr (Function.update cur c (cur c + 1))
            (Function.update used (min c ((adj.getD c []).getD (cur c) 0))
              (Function.update (used (min c ((adj.getD c []).getD (cur c) 0)))
                (max c ((adj.getD c []).getD (cur c) 0)) true))
            (c :: stack) ((adj.getD c []).getD (cur c) 0) := by
          refine ⟨hv, ?_, ?_, ?_, inv.last, ?_⟩
          · intro x hx
            rcases List.mem_cons.1 hx with rfl | hx
            · exact inv.bound
            · exact inv.sbound x hx
          · refine (inv.trav.take c inv.bound hlt hun).of_perm ?_
            rw [List.reverse_cons, pairs_snoc_snoc, List.append_assoc]
            refine List.Perm.trans ?_ (List.perm_append_comm_assoc _ _ _)
            rw [List.singleton_append]
          · rw [List.reverse_cons, List.head?_append_of_ne_nil _ (by simp)]
            exact inv.head
          · intro x hx
            have hxc : x ≠ c := by
              rintro rfl
              have := inv.fin x hx
              omega
            rw [Function.update_noteq hxc]
            exact inv.fin x hx
        obtain ⟨cur2, used2, stack2, c2, he, inv3, hfull, hm⟩ := ih _ _ _ _ inv2 (by omega)
        refine ⟨cur2, used2, stack2, c2, ?_, inv3, hfull, ?_⟩
        · rw [undirected_walk, if_pos hb, if_pos hlt]
          simp only [if_pos hmax, hun, Bool.not_false, if_true]
          exact he
        · rw [List.length_cons] at hm
          omega
    · refine ⟨cur, used, stack, c, ?_, inv, ?_, le_refl _⟩
      · rw [undirected_walk, if_pos hb, if_neg hlt]
      · have := inv.trav.le c
        omega

theorem undirected_walk_mono (adj : List (List Nat)) :
    ∀ (fuel : Nat) (cur : Nat → Nat) (used : Nat → Nat → Bool) (stack : List Nat) (c : Nat)
      (r : (Nat → Nat) × (Nat → Nat → Bool) × List Nat × Nat),
      undirected_walk adj fuel cur used stack c = some r →
      ∀ fuel2, fuel ≤ fuel2 → undirected_walk adj fuel2 cur used stack c = some r := by
  intro fuel
  induction fuel with
  | zero => intro cur used stack c r h; simp [undirected_walk] at h
  | succ fuel ih =>
    intro cur used stack c r h fuel2 hle
    obtain ⟨f, rfl⟩ : ∃ f, fuel2 = f + 1 := ⟨fuel2 - 1, by omega⟩
    rw [undirected_walk] at h ⊢
    simp only [] at h ⊢
    split_ifs at h ⊢ with h1 h2 h3 h4
    · exact ih _ _ _ _ _ h f (by omega)
    · exact ih _ _ _ _ _ h f (by omega)
    · exact h

theorem undirected_loop_mono (adj : List (List Nat)) :
    ∀ (fuel : Nat) (cur : Nat → Nat) (used : Nat → Nat → Bool) (stack res out : List Nat),
      undirected_loop adj fuel cur used stack res = some out →
      ∀ fuel2, fuel ≤ fuel2 → undirected_loop adj fuel2 cur used stack res = some out := by
  intro fuel
  induction fuel with
  | zero => intro cur used stack res out h; simp [undirected_loop] at h
  | succ fuel ih =>
    intro cur used stack res out h fuel2 hle
    obtain ⟨f, rfl⟩ : ∃ f, fuel2 = f + 1 := ⟨fuel2 - 1, by omega⟩
    cases stack with
    | nil => simpa [undirected_loop] using h
    | cons p stack =>
      rw [undirected_loop] at h ⊢
      cases hw : undirected_walk adj fuel cur used stack p with
      | none => simp [hw] at h
      | some r =>
        obtain ⟨cur2, used2, stack2, c2⟩ := r
        rw [undirected_walk_mono adj fuel cur used stack p _ hw f (by omega)]
        simp only [hw] at h ⊢
        exact ih _ _ _ _ _ h f (by omega)

theorem undirected_loop_spec (adj : List (List Nat)) (hV : adj.length ≤ MAXN)
    (hg : SimpleAdj adj) (heven : ∀ v, v < adj.length → Even (adj.getD v []).length)
    (start : Nat) :
    ∀ (fuel : Nat) (cur : Nat → Nat) (used : Nat → Nat → Bool) (stack rr : List Nat) (c : Nat),
      UWalkInv adj start c rr cur used stack c →
      (stack.length + 1) + ((edges adj).length - (usedEdges adj cur).length) < fuel →
      ∃ cur2 used2 c2 rr2,
        undirected_loop adj fuel cur used (c :: stack) rr.reverse = some (c2 :: rr2).reverse
        ∧ UWalkInv adj start c2 rr2 cur2 used2 [] c2
        ∧ cur2 c2 = (adj.getD c2 []).length := by
  have hvalid : ValidAdj adj := by
    intro a b hab
    obtain ⟨ha, hb⟩ := mem_edges.1 hab
    exact hg.valid _ (getD_mem_list adj a ha) b hb
  intro fuel
  induction fuel with
  | zero => intro cur used stack rr c _ h; omega
  | succ fuel ih =>
    intro cur used stack rr c inv hfuel
    obtain ⟨cur2, used2, stack2, c2, he, inv2, hfull, hm⟩ :=
      undirected_walk_spec adj hV hvalid start c rr fuel cur used stack c inv (by omega)
    have hcount := inv2.trav.incident_count hg.symm hg.noLoop c2 inv2.bound
      (hg.noParallel _ (getD_mem_list adj c2 inv2.bound)) hfull
    have hcp : c2 = c :=
      ustuck_closes adj (stack2.reverse ++ [c2]) (c :: rr) start c2 c hcount
        inv2.head (by simp) (by simp) inv2.last (heven c2 inv2.bound)
    subst hcp
    rw [undirected_loop]
    simp only [he]
    cases stack2 with
    | nil =>
      refine ⟨cur2, used2, c2, rr, ?_, inv2, hfull⟩
      obtain ⟨f, rfl⟩ : ∃ f, fuel = f + 1 := ⟨fuel - 1, by omega⟩
      rw [undirected_loop, List.reverse_cons]
    | cons q stack3 =>
      have inv3 : UWalkInv adj start q (c2 :: rr) cur2 used2 stack3 q := by
        refine ⟨inv2.sbound q (List.mem_cons_self _ _),
          fun x hx => inv2.sbound x (List.mem_cons_of_mem _ hx), ?_, ?_, ?_, ?_⟩
        · have := inv2.trav
          rw [List.reverse_cons, pairs_snoc_snoc, List.append_assoc, List.singleton_append,
            ← pairs_cons_cons] at this
          exact this
        · have := inv2.head
          rw [List.reverse_cons, List.head?_append_of_ne_nil _ (by simp)] at this
          exact this
        · rw [List.getLast?_cons_cons]
          exact inv2.last
        · intro x hx
          rcases List.mem_cons.1 hx with rfl | hx
          · exact hfull
          · exact inv2.fin x hx
      rw [List.length_cons] at hm
      obtain ⟨cur3, used3, c3, rr3, he3, inv4, hfull3⟩ :=
        ih cur2 used2 stack3 (c2 :: rr) q inv3 (by omega)
      refine ⟨cur3, used3, c3, rr3, ?_, inv4, hfull3⟩
      rw [List.reverse_cons] at he3
      exact he3

theorem edges_nodup (adj : List (List Nat)) (h : ∀ l ∈ adj, l.Nodup) : (edges adj).Nodup := by
  have key : ∀ e, ecount e (edges adj) ≤ 1 := by
    rintro ⟨a, b⟩
    rw [ecount_edges]
    split_ifs with ha
    · exact List.nodup_iff_count_le_one.1 (h _ (getD_mem_list adj a ha)) b
    · exact Nat.zero_le _
  exact List.nodup_iff_count_le_one.2 key

theorem uedges_nodup (adj : List (List Nat)) (h : ∀ l ∈ adj, l.Nodup) : (uedges adj).Nodup :=
  (edges_nodup adj h).filter _

theorem mem_uedges {adj : List (List Nat)} {x y : Nat} :
    (x, y) ∈ uedges adj ↔ (x, y) ∈ edges adj ∧ x < y := by
  unfold uedges
  rw [List.mem_filter]
  simp

theorem upair_of_lt {x y : Nat} (h : x < y) : upair (x, y) = (x, y) := by
  simp only [upair, Prod.mk.injEq]
  omega

theorem upair_of_gt {x y : Nat} (h : y < x) : upair (x, y) = (y, x) := by
  simp only [upair, Prod.mk.injEq]
  omega

theorem length_edges_eq (adj : List (List Nat)) (hg : SimpleAdj adj) :
    (edges adj).length = 2 * (uedges adj).length := by
  have hsplit := List.length_eq_length_filter_add (l := edges adj) (fun e => decide (e.1 < e.2))
  have hperm : ((edges adj).filter (fun e => !decide (e.1 < e.2))).Perm
      ((uedges adj).map Prod.swap) := by
    rw [List.perm_ext_iff_of_nodup ((edges_nodup adj hg.noParallel).filter _)
      ((uedges_nodup adj hg.noParallel).map Prod.swap_injective)]
    rintro ⟨a, b⟩
    simp only [List.mem_filter, Bool.not_eq_true', decide_eq_false_iff_not, not_lt,
      List.mem_map, Prod.exists, Prod.swap_prod_mk, Prod.mk.injEq]
    constructor
    · rintro ⟨he, hle⟩
      have hne : a ≠ b := by
        rintro rfl
        exact hg.noLoop a he
      exact ⟨b, a, mem_uedges.2 ⟨hg.symm a b he, by omega⟩, rfl, rfl⟩
    · rintro ⟨x, y, hxy, rfl, rfl⟩
      obtain ⟨he, hlt⟩ := mem_uedges.1 hxy
      exact ⟨hg.symm _ _ he, by omega⟩
  have h2 := hperm.length_eq
  rw [List.length_map] at h2
  unfold uedges at h2 ⊢
  omega

theorem undirected_correct_aux (adj : List (List Nat)) (nodes u : Nat)
    (hV : adj.length ≤ MAXN) (hg : SimpleAdj adj)
    (heven : ∀ v, v < adj.length → Even (adj.getD v []).length)
    (hconn : ∀ a, a < adj.length → adj.getD a [] ≠ [] → Reach adj u a)
    (hu : u < adj.length) :
    ∃ res : List Nat,
      (∀ fuel, 2 * (uedges adj).length + 2 ≤ fuel →
        euler_cycle_undirected fuel adj nodes u = some res)
      ∧ res.length = (uedges adj).length + 1
      ∧ res.head? = some u ∧ res.getLast? = some u
      ∧ (↑((pairs res).map upair) : Multiset (Nat × Nat)) = ↑(uedges adj)
      ∧ (uedges adj).Nodup := by
  have hused0 : usedEdges adj (fun _ => 0) = [] := by
    unfold usedEdges
    simp
  have inv0 : UWalkInv adj u u [] (fun _ => 0) (fun _ _ => false) [] u := by
    refine ⟨hu, by simp, ?_, by simp, by simp, by simp⟩
    refine ⟨fun _ => Nat.zero_le _, ?_, ?_, ?_, ?_⟩
    · simp [pairs_single]
    · simp [pairs_single]
    · simp [pairs_single]
    · rw [hused0]; simp
  obtain ⟨cur2, used2, c2, rr, he, inv, hfull⟩ :=
    undirected_loop_spec adj hV hg heven u ((edges adj).length + 2) (fun _ => 0)
      (fun _ _ => false) [] [] u inv0 (by simp only [List.length_nil]; omega)
  have hc2 : c2 = u := by
    have := inv.head
    simpa using this
  subst hc2
  have htrav := inv.trav
  simp only [List.reverse_nil, List.nil_append, pairs_single] at htrav
  have hfin : ∀ x ∈ c2 :: rr, cur2 x = (adj.getD x []).length := by
    intro x hx
    rcases List.mem_cons.1 hx with rfl | hx
    · exact hfull
    · exact inv.fin x hx
  have hreach : ∀ x, Reach adj c2 x → x ∈ c2 :: rr := by
    intro x hx
    induction hx with
    | refl => exact List.mem_cons_self _ _
    | @tail y z _ hyz ih =>
      have hy := hfin y ih
      have hused : (y, z) ∈ usedEdges adj cur2 := by
        rw [mem_usedEdges, hy, List.take_length]
        exact mem_edges.1 hyz
      obtain ⟨⟨a, b⟩, hab, hup⟩ := List.mem_map.1 (htrav.scanned _ hused)
      have hmem := mem_of_mem_pairs hab
      rcases (upair_eq_iff a b y z).1 hup with ⟨_, h2⟩ | ⟨h1, _⟩
      · rw [← h2]; exact hmem.2
      · rw [← h1]; exact hmem.1
  have hnd := uedges_nodup adj hg.noParallel
  have hperm : ((pairs (c2 :: rr)).map upair).Perm (uedges adj) := by
    rw [List.perm_ext_iff_of_nodup htrav.nodup hnd]
    rintro ⟨x, y⟩
    constructor
    · intro hq
      obtain ⟨⟨a, b⟩, hab, hup⟩ := List.mem_map.1 hq
      have hedge := htrav.isEdge _ hab
      have hne : a ≠ b := by
        rintro rfl
        exact hg.noLoop a hedge
      rcases Nat.lt_or_gt_of_ne hne with hlt | hgt
      · rw [← hup, upair_of_lt hlt]
        exact mem_uedges.2 ⟨hedge, hlt⟩
      · rw [← hup, upair_of_gt hgt]
        exact mem_uedges.2 ⟨hg.symm _ _ hedge, hgt⟩
    · intro hq
      obtain ⟨hedge, hlt⟩ := mem_uedges.1 hq
      obtain ⟨hx, hy⟩ := mem_edges.1 hedge
      have hxne : adj.getD x [] ≠ [] := List.ne_nil_of_mem hy
      have hxr := hreach x (hconn x hx hxne)
      have hused : (x, y) ∈ usedEdges adj cur2 := by
        rw [mem_usedEdges, hfin x hxr, List.take_length]
        exact ⟨hx, hy⟩
      have := htrav.scanned _ hused
      rw [upair_of_lt hlt] at this
      exact this
  have hlast := inv.last
  refine ⟨c2 :: rr, ?_, ?_, by simp, hlast, Multiset.coe_eq_coe.2 hperm, hnd⟩
  · intro fuel hf
    unfold euler_cycle_undirected
    rw [List.reverse_nil] at he
    rw [undirected_loop_mono adj _ _ _ _ _ _ he fuel
      (by rw [length_edges_eq adj hg]; exact hf)]
    simp
  · have h1 := hperm.length_eq
    rw [List.length_map, length_pairs] at h1
    rw [List.length_cons] at h1 ⊢
    omega

/-- C2: on every simple undirected graph given by symmetric adjacency lists, with all
degrees even and all vertices of nonzero degree connected, `euler_cycle_undirected` started
at a vertex of nonzero degree (or at any vertex when there are no edges) returns, for every
fuel of at least `2 * E + 2`, one sequence of `E + 1` vertices that starts and ends at the
start vertex and whose consecutive pairs, read as unordered pairs, are the `E` distinct
edges of the graph, each exactly once. -/
theorem euler_cycle_undirected_correct (adj : List (List Nat)) (nodes u : Nat)
    (hV : adj.length ≤ MAXN)
    (hvalid : ∀ l ∈ adj, ∀ b ∈ l, b < adj.length)
    (hsymm : ∀ a, a < adj.length → ∀ b, b ∈ adj.getD a [] → a ∈ adj.getD b [])
    (hloop : ∀ a, a < adj.length → a ∉ adj.getD a [])
    (hpar : ∀ l ∈ adj, l.Nodup)
    (heven : ∀ v, v < adj.length → Even (adj.getD v []).length)
    (hconn : ∀ a b, a < adj.length → b < adj.length → adj.getD a [] ≠ [] →
      adj.getD b [] ≠ [] → Reach adj a b)
    (hu : u < adj.length)
    (hstart : adj.getD u [] ≠ [] ∨ edges adj = []) :
    ∃ res : List Nat,
      (∀ fuel, 2 * (uedges adj).length + 2 ≤ fuel →
        euler_cycle_undirected fuel adj nodes u = some res)
      ∧ res.length = (uedges adj).length + 1
      ∧ res.head? = some u ∧ res.getLast? = some u
      ∧ (↑((pairs res).map upair) : Multiset (Nat × Nat)) = ↑(uedges adj)
      ∧ (uedges adj).Nodup := by
  have hg : SimpleAdj adj := by
    refine ⟨hvalid, ?_, ?_, hpar⟩
    · intro a b hab
      obtain ⟨ha, hb⟩ := mem_edges.1 hab
      have hb2 : b < adj.length := hvalid _ (getD_mem_list adj a ha) b hb
      exact mem_edges.2 ⟨hb2, hsymm a ha b hb⟩
    · intro a ha
      obtain ⟨h1, h2⟩ := mem_edges.1 ha
      exact hloop a h1 h2
  refine undirected_correct_aux adj nodes u hV hg heven ?_ hu
  intro a ha hne
  rcases hstart with h | h
  · exact hconn u a hu ha h hne
  · exfalso
    obtain ⟨b, hb⟩ := List.exists_mem_of_ne_nil _ hne
    have : (a, b) ∈ edges adj := mem_edges.2 ⟨ha, hb⟩
    rw [h] at this
    simp at this

theorem euler_cycle_undirected_triangle :
    ∃ res : List Nat,
      (∀ fuel, 8 ≤ fuel → euler_cycle_undirected fuel g3 3 0 = some res)
      ∧ res = [0, 1, 2, 0]
      ∧ res.length = 4 ∧ res.head? = some 0 ∧ res.getLast? = some 0
      ∧ (↑((pairs res).map upair) : Multiset (Nat × Nat)) = ↑(uedges g3)
      ∧ (uedges g3).Nodup := by
  have hreach : ∀ a b, a < 3 → b < 3 → Reach g3 a b := by
    intro a b ha hb
    have to0 : Reach g3 a 0 := by
      interval_cases a
      · exact reach_of_walk g3 0 [] (by decide)
      · exact reach_of_walk g3 1 [0] (by decide)
      · exact reach_of_walk g3 2 [0] (by decide)
    have from0 : Reach g3 0 b := by
      interval_cases b
      · exact reach_of_walk g3 0 [] (by decide)
      · exact reach_of_walk g3 0 [1] (by decide)
      · exact reach_of_walk g3 0 [2] (by decide)
    exact Relation.ReflTransGen.trans to0 from0
  obtain ⟨res, h1, h2, h3, h4, h5, h6⟩ := euler_cycle_undirected_correct g3 3 0 (by decide)
    (by decide) (by decide) (by decide) (by decide) (by decide)
    (fun a b ha hb _ _ => hreach a b ha hb) (by decide) (Or.inl (by decide))
  refine ⟨res, h1, ?_, h2, h3, h4, h5, h6⟩
  have h := h1 8 (le_refl 8)
  have h8 : euler_cycle_undirected 8 g3 3 0 = some [0, 1, 2, 0] := by decide
  rw [h8] at h
  exact (Option.some.inj h).symm

theorem undirected_sample_run (fuel : Nat) (h : 18 ≤ fuel) :
    euler_cycle_undirected fuel g2 5 2 = some [2, 1, 0, 3, 2, 0, 4, 1, 3] := by
  have h18 : undirected_loop g2 18 (fun _ => 0) (fun _ _ => false) [2] []
      = some [3, 1, 4, 0, 2, 3, 0, 1, 2] := by decide
  unfold euler_cycle_undirected
  rw [undirected_loop_mono g2 18 _ _ _ _ _ h18 fuel h]
  rfl

theorem undirected_sample_unique (fuel : Nat) (res : List Nat)
    (h : euler_cycle_undirected fuel g2 5 2 = some res) :
    res = [2, 1, 0, 3, 2, 0, 4, 1, 3] := by
  unfold euler_cycle_undirected at h
  cases hl : undirected_loop g2 fuel (fun _ => 0) (fun _ _ => false) [2] [] with
  | none => rw [hl] at h; simp at h
  | some out =>
    have h2 := undirected_loop_mono g2 fuel _ _ _ _ _ hl (fuel + 18) (by omega)
    have h3 := undirected_sample_run (fuel + 18) (by omega)
    unfold euler_cycle_undirected at h3
    rw [h2] at h3
    rw [hl] at h
    simp only [Option.map_some', Option.some.injEq] at h h3
    rw [← h, h3]

/-- C3, as stated, fails: for no fuel does the run on the undirected sample graph from
vertex 2 return a sequence of 9 vertices that both starts and ends at 2 and covers the 8
edges once each. -/
theorem undirected_sample_not_closed :
    ¬ ∃ (fuel : Nat) (res : List Nat),
      euler_cycle_undirected fuel g2 5 2 = some res ∧ res.length = 9
        ∧ res.head? = some 2 ∧ res.getLast? = some 2
        ∧ (↑((pairs res).map upair) : Multiset (Nat × Nat)) = ↑(uedges g2) := by
  rintro ⟨fuel, res, h, -, -, hlast, -⟩
  rw [undirected_sample_unique fuel res h] at hlast
  revert hlast
  decide

/-- C3, amended: on the undirected sample graph from vertex 2 the run returns (for every
fuel of at least 18) a sequence of 9 vertices that starts at 2 and ends at 3 and whose 8
consecutive pairs, read as unordered pairs, are the 8 edges of the graph, each exactly
once. -/
theorem undirected_sample_trail :
    ∃ res : List Nat,
      (∀ fuel, 18 ≤ fuel → euler_cycle_undirected fuel g2 5 2 = some res)
        ∧ res.length = 9 ∧ res.head? = some 2 ∧ res.getLast? = some 3
        ∧ (↑((pairs res).map upair) : Multiset (Nat × Nat)) = ↑(uedges g2)
        ∧ (↑(uedges g2) : Multiset (Nat × Nat))
            = ↑[(0, 1), (1, 2), (2, 3), (0, 3), (0, 4), (1, 4), (0, 2), (1, 3)]
        ∧ (uedges g2).Nodup := by
  refine ⟨[2, 1, 0, 3, 2, 0, 4, 1, 3], undirected_sample_run, ?_, ?_, ?_, ?_, ?_, ?_⟩ <;>
    decide

/-- C4: on the undirected sample graph built in `main`, started at vertex 2, the run returns
exactly `2 1 0 3 2 0 4 1 3` (for every fuel of at least 18), the documented sample output. -/
theorem undirected_sample_output (fuel : Nat) (h : 18 ≤ fuel) :
    euler_cycle_undirected fuel g2 5 2 = some [2, 1, 0, 3, 2, 0, 4, 1, 3] := by
  have h18 : euler_cycle_undirected 18 g2 5 2 = some [2, 1, 0, 3, 2, 0, 4, 1, 3] := by decide
  unfold euler_cycle_undirected at h18 ⊢
  cases hl : undirected_loop g2 18 (fun _ => 0) (fun _ _ => false) [2] [] with
  | none => rw [hl] at h18; simp at h18
  | some out =>
    rw [hl] at h18
    rw [undirected_loop_mono g2 18 _ _ _ _ _ hl fuel h]
    exact h18

theorem undirected_sample_output_at_18 :
    18 ≤ 18 ∧ euler_cycle_undirected 18 g2 5 2 = some [2, 1, 0, 3, 2, 0, 4, 1, 3] :=
  ⟨le_refl 18, undirected_sample_output 18 (le_refl 18)⟩

theorem directed_walk_total (adj : List (List Nat)) (hV : adj.length ≤ MAXN)
    (hvalid : ValidAdj adj) :
    ∀ (fuel : Nat) (cur : Nat → Nat) (stack : List Nat) (c : Nat),
      c < adj.length → (∀ x ∈ stack, x < adj.length) →
      (edges adj).length - (usedEdges adj cur).length < fuel →
      ∃ cur2 stack2 c2, directed_walk adj fuel cur stack c = some (cur2, stack2, c2)
        ∧ c2 < adj.length ∧ (∀ x ∈ stack2, x < adj.length)
        ∧ stack2.length + ((edges adj).length - (usedEdges adj cur2).length)
            = stack.length + ((edges adj).length - (usedEdges adj cur).length) := by
  intro fuel
  induction fuel with
  | zero => intro cur stack c _ _ h; omega
  | succ fuel ih =>
    intro cur stack c hc hs hfuel
    have hb : c < MAXN ∧ c < adj.length := ⟨by omega, hc⟩
    by_cases hlt : cur c < (adj.getD c []).length
    · have hstep := usedEdges_step adj cur c hc hlt
      have hlen := hstep.length_eq
      rw [List.length_append, List.length_singleton] at hlen
      have hle2 := length_usedEdges_le adj (Function.update cur c (cur c + 1))
      have hv : (adj.getD c []).getD (cur c) 0 < adj.length :=
        hvalid c _ (mem_edges.2 ⟨hc, getD_mem _ _ _ hlt⟩)
      have hs2 : ∀ x ∈ c :: stack, x < adj.length := by
        intro x hx
        rcases List.mem_cons.1 hx with rfl | hx
        · exact hc
        · exact hs x hx
      obtain ⟨cur2, stack2, c2, he, h1, h2, hm⟩ :=
        ih (Function.update cur c (cur c + 1)) (c :: stack) _ hv hs2 (by omega)
      refine ⟨cur2, stack2, c2, ?_, h1, h2, ?_⟩
      · rw [directed_walk, if_pos hb, if_pos hlt]
        exact he
      · rw [hm, List.length_cons]
        omega
    · refine ⟨cur, stack, c, ?_, hc, hs, rfl⟩
      rw [directed_walk, if_pos hb, if_neg hlt]

theorem directed_loop_total (adj : List (List Nat)) (hV : adj.length ≤ MAXN)
    (hvalid : ValidAdj adj) :
    ∀ (fuel : Nat) (cur : Nat → Nat) (stack res : List Nat),
      (∀ x ∈ stack, x < adj.length) →
      stack.length + ((edges adj).length - (usedEdges adj cur).length) < fuel →
      ∃ out, directed_loop adj fuel cur stack res = some out := by
  intro fuel
  induction fuel with
  | zero => intro cur stack res _ h; omega
  | succ fuel ih =>
    intro cur stack res hs hfuel
    cases stack with
    | nil => exact ⟨res, by simp [directed_loop]⟩
    | cons p stack =>
      rw [List.length_cons] at hfuel
      obtain ⟨cur2, stack2, c2, he, -, h2, hm⟩ :=
        directed_walk_total adj hV hvalid fuel cur stack p (hs p (List.mem_cons_self _ _))
          (fun x hx => hs x (List.mem_cons_of_mem _ hx)) (by omega)
      obtain ⟨out, hout⟩ := ih cur2 stack2 (res ++ [c2]) h2 (by omega)
      refine ⟨out, ?_⟩
      rw [directed_loop]
      simp only [he]
      exact hout

theorem undirected_walk_total (adj : List (List Nat)) (hV : adj.length ≤ MAXN)
    (hvalid : ValidAdj adj) :
    ∀ (fuel : Nat) (cur : Nat → Nat) (used : Nat → Nat → Bool) (stack : List Nat) (c : Nat),
      c < adj.length → (∀ x ∈ stack, x < adj.length) →
      (edges adj).length - (usedEdges adj cur).length < fuel →
      ∃ cur2 used2 stack2 c2,
        undirected_walk adj fuel cur used stack c = some (cur2, used2, stack2, c2)
        ∧ c2 < adj.length ∧ (∀ x ∈ stack2, x < adj.length)
        ∧ stack2.length + ((edges adj).length - (usedEdges adj cur2).length)
            ≤ stack.length + ((edges adj).length - (usedEdges adj cur).length) := by
  intro fuel
  induction fuel with
  | zero => intro cur used stack c _ _ h; omega
  | succ fuel ih =>
    intro cur used stack c hc hs hfuel
    have hb : c < MAXN ∧ c < adj.length := ⟨by omega, hc⟩
    by_cases hlt : cur c < (adj.getD c []).length
    · have hstep := usedEdges_step adj cur c hc hlt
      have hlen := hstep.length_eq
      rw [List.length_append, List.length_singleton] at hlen
      have hle2 := length_usedEdges_le adj (Function.update cur c (cur c + 1))
      have hv : (adj.getD c []).getD (cur c) 0 < adj.length :=
        hvalid c _ (mem_edges.2 ⟨hc, getD_mem _ _ _ hlt⟩)
      have hmax : max c ((adj.getD c []).getD (cur c) 0) < MAXN := by
        rw [Nat.max_def]
        split_ifs <;> omega
      by_cases hused : used (min c ((adj.getD c []).getD (cur c) 0))
          (max c ((adj.getD c []).getD (cur c) 0)) = true
      · obtain ⟨cur2, used2, stack2, c2, he, h1, h2, hm⟩ :=
          ih (Function.update cur c (cur c + 1)) used stack c hc hs (by omega)
        refine ⟨cur2, used2, stack2, c2, ?_, h1, h2, by omega⟩
        rw [undirected_walk, if_pos hb, if_pos hlt]
        simp only [if_pos hmax, hused, Bool.not_true, Bool.false_eq_true, if_false]
        exact he
      · have hun : used (min c ((adj.getD c []).getD (cur c) 0))
            (max c ((adj.getD c []).getD (cur c) 0)) = false := by
          simpa using hused
        have hs2 : ∀ x ∈ c :: stack, x < adj.length := by
          intro x hx
          rcases List.mem_cons.1 hx with rfl | hx
          · exact hc
          · exact hs x hx
        obtain ⟨cur2, used2, stack2, c2, he, h1, h2, hm⟩ :=
          ih (Function.update cur c (cur c + 1)) _ (c :: stack) _ hv hs2 (by omega)
        refine ⟨cur2, used2, stack2, c2, ?_, h1, h2, ?_⟩
        · rw [undirected_walk, if_pos hb, if_pos hlt]
          simp only [if_pos hmax, hun, Bool.not_false, if_true]
          exact he
        · rw [List.length_cons] at hm
          omega
    · refine ⟨cur, used, stack, c, ?_, hc, hs, le_refl _⟩
      rw [undirected_walk, if_pos hb, if_neg hlt]

theorem undirected_loop_total (adj : List (List Nat)) (hV : adj.length ≤ MAXN)
    (hvalid : ValidAdj adj) :
    ∀ (fuel : Nat) (cur : Nat → Nat) (used : Nat → Nat → Bool) (stack res : List Nat),
      (∀ x ∈ stack, x < adj.length) →
      stack.length + ((edges adj).length - (usedEdges adj cur).length) < fuel →
      ∃ out, undirected_loop adj fuel cur used stack res = some out := by
  intro fuel
  induction fuel with
  | zero => intro cur used stack res _ h; omega
  | succ fuel ih =>
    intro cur used stack res hs hfuel
    cases stack with
    | nil => exact ⟨res, by simp [undirected_loop]⟩
    | cons p stack =>
      rw [List.length_cons] at hfuel
      obtain ⟨cur2, used2, stack2, c2, he, -, h2, hm⟩ :=
        undirected_walk_total adj hV hvalid fuel cur used stack p
          (hs p (List.mem_cons_self _ _))
          (fun x hx => hs x (List.mem_cons_of_mem _ hx)) (by omega)
      obtain ⟨out, hout⟩ := ih cur2 used2 stack2 (res ++ [c2]) h2 (by omega)
      refine ⟨out, ?_⟩
      rw [undirected_loop]
      simp only [he]
      exact hout

theorem validAdj_of_entries (adj : List (List Nat))
    (hvalid : ∀ l ∈ adj, ∀ b ∈ l, b < adj.length) : ValidAdj adj := by
  intro a b hab
  obtain ⟨ha, hb⟩ := mem_edges.1 hab
  exact hvalid _ (getD_mem_list adj a ha) b hb

theorem usedEdges_zero (adj : List (List Nat)) : usedEdges adj (fun _ => 0) = [] := by
  unfold usedEdges
  simp

/-- C14: on every graph with at most `MAXN` vertices whose adjacency entries are vertices,
from every start vertex, both finders return a result for every fuel of at least
`(number of adjacency entries) + 2`: the loops end and no access to `adj`, `cur_edge` or
`used` is out of bounds, with no assumption on degrees or connectivity. -/
theorem euler_no_crash (adj : List (List Nat)) (nodes u : Nat)
    (hV : adj.length ≤ MAXN)
    (hvalid : ∀ l ∈ adj, ∀ b ∈ l, b < adj.length)
    (hu : u < adj.length) :
    ∃ r1 r2 : List Nat, ∀ fuel, (edges adj).length + 2 ≤ fuel →
      euler_cycle_directed fuel adj nodes u = some r1
        ∧ euler_cycle_undirected fuel adj nodes u = some r2 := by
  have hva := validAdj_of_entries adj hvalid
  have hs : ∀ x ∈ [u], x < adj.length := by
    intro x hx
    rw [List.mem_singleton.1 hx]
    exact hu
  have hm : [u].length + ((edges adj).length - (usedEdges adj (fun _ => 0)).length)
      < (edges adj).length + 2 := by
    rw [usedEdges_zero]
    simp only [List.length_singleton, List.length_nil]
    omega
  obtain ⟨o1, h1⟩ := directed_loop_total adj hV hva _ (fun _ => 0) [u] [] hs hm
  obtain ⟨o2, h2⟩ := undirected_loop_total adj hV hva _ (fun _ => 0) (fun _ _ => false)
    [u] [] hs hm
  refine ⟨o1.reverse, o2.reverse, ?_⟩
  intro fuel hf
  unfold euler_cycle_directed euler_cycle_undirected
  rw [directed_loop_mono adj _ _ _ _ _ h1 fuel hf,
    undirected_loop_mono adj _ _ _ _ _ _ h2 fuel hf]
  exact ⟨rfl, rfl⟩

theorem euler_no_crash_fork :
    ∃ r1 r2 : List Nat, ∀ fuel, (edges gFork).length + 2 ≤ fuel →
      euler_cycle_directed fuel gFork 3 0 = some r1
        ∧ euler_cycle_undirected fuel gFork 3 0 = some r2 :=
  euler_no_crash gFork 3 0 (by decide) (by decide) (by decide)

theorem directed_fork_run (fuel : Nat) (res : List Nat)
    (h : euler_cycle_directed fuel gFork 3 0 = some res) : res = [0, 2, 1] := by
  unfold euler_cycle_directed at h
  cases hl : directed_loop gFork fuel (fun _ => 0) [0] [] with
  | none => rw [hl] at h; simp at h
  | some out =>
    have h2 := directed_loop_mono gFork fuel _ _ _ _ hl (fuel + 4) (by omega)
    have h4 : directed_loop gFork 4 (fun _ => 0) [0] [] = some [1, 2, 0] := by decide
    have h3 := directed_loop_mono gFork 4 _ _ _ _ h4 (fuel + 4) (by omega)
    rw [h2] at h3
    rw [hl] at h
    simp only [Option.map_some', Option.some.injEq] at h h3
    rw [← h, h3]
    rfl

/-- C15, as stated, fails: on the graph with the edges 0->1 and 0->2, from vertex 0, the run
returns 0 2 1, whose consecutive pair (2, 1) is not an edge. -/
theorem directed_fork_not_trail :
    ¬ ∀ (fuel : Nat) (res : List Nat), euler_cycle_directed fuel gFork 3 0 = some res →
      (∀ e ∈ pairs res, e ∈ edges gFork)
        ∧ (↑(pairs res) : Multiset (Nat × Nat)) ≤ ↑(edges gFork) := by
  intro h
  have h4 : euler_cycle_directed 4 gFork 3 0 = some [0, 2, 1] := by decide
  have := (h 4 [0, 2, 1] h4).1 (2, 1) (by decide)
  revert this
  decide

/-- C15, amended: on every directed graph with at most `MAXN` vertices and valid entries in
which every vertex has in-degree equal to out-degree (connectivity is not assumed), from
every start vertex, the run returns a closed trail through a subset of the edges: it starts
and ends at the start vertex, every consecutive pair is a directed edge, and no edge is used
more often than its multiplicity in the adjacency lists. -/
theorem directed_trail_of_balanced (adj : List (List Nat)) (nodes u : Nat)
    (hV : adj.length ≤ MAXN)
    (hvalid : ∀ l ∈ adj, ∀ b ∈ l, b < adj.length)
    (hbal : ∀ v, v < adj.length → indeg adj v = outdeg adj v)
    (hu : u < adj.length) :
    ∃ res : List Nat,
      (∀ fuel, (edges adj).length + 2 ≤ fuel → euler_cycle_directed fuel adj nodes u = some res)
        ∧ res.head? = some u ∧ res.getLast? = some u
        ∧ (∀ e ∈ pairs res, e ∈ edges adj)
        ∧ (↑(pairs res) : Multiset (Nat × Nat)) ≤ ↑(edges adj) := by
  have hva := validAdj_of_entries adj hvalid
  have inv0 : LoopInv adj u (fun _ => 0) [u] [] := by
    refine ⟨?_, fun _ => Nat.zero_le _, ?_, by simp, by simp, by simp⟩
    · intro x hx
      rw [List.mem_singleton.1 hx]
      exact hu
    · rw [usedEdges_zero]
      simp [pairs_single]
  obtain ⟨cur2, rr, he, inv⟩ :=
    directed_loop_spec adj hV hva hbal u ((edges adj).length + 2) (fun _ => 0) [u] [] inv0
      (by rw [usedEdges_zero]; simp only [List.length_singleton, List.length_nil]; omega)
  have hperm := inv.perm
  have hhead := inv.head
  have hlast := inv.last
  simp only [List.reverse_nil, List.nil_append] at hperm hhead hlast
  have hsub : (pairs rr).Subperm (edges adj) :=
    hperm.subperm.trans (usedEdges_sublist adj cur2).subperm
  refine ⟨rr, ?_, hhead, hlast, fun e he => hsub.subset he, Multiset.coe_le.2 hsub⟩
  intro fuel hf
  unfold euler_cycle_directed
  rw [List.reverse_nil] at he
  rw [directed_loop_mono adj _ _ _ _ _ he fuel hf]
  simp

theorem directed_trail_two_cycles :
    ∃ res : List Nat,
      (∀ fuel, (edges gTwoCycles).length + 2 ≤ fuel →
        euler_cycle_directed fuel gTwoCycles 4 0 = some res)
        ∧ res.head? = some 0 ∧ res.getLast? = some 0
        ∧ (∀ e ∈ pairs res, e ∈ edges gTwoCycles)
        ∧ (↑(pairs res) : Multiset (Nat × Nat)) ≤ ↑(edges gTwoCycles) :=
  directed_trail_of_balanced gTwoCycles 4 0 (by decide) (by decide) (by decide) (by decide)

theorem undirected_parallel_run (fuel : Nat) (h : 6 ≤ fuel) :
    euler_cycle_undirected fuel gParallel 2 0 = some [0, 1] := by
  have h6 : undirected_loop gParallel 6 (fun _ => 0) (fun _ _ => false) [0] []
      = some [1, 0] := by decide
  unfold euler_cycle_undirected
  rw [undirected_loop_mono gParallel 6 _ _ _ _ _ h6 fuel h]
  rfl

/-- C16: the adjacency lists `adj[0] = [1, 1]`, `adj[1] = [0, 0]` (two parallel edges between
0 and 1) have even degrees, are symmetric and connected, and have 2 edges; from vertex 0 the
run returns `0 1` for every fuel of at least 6, a sequence of 2 vertices and not 3, whose
single pair covers only one of the two edges. -/
theorem undirected_parallel_edges_missed :
    (∀ v, v < gParallel.length → Even (gParallel.getD v []).length)
      ∧ (∀ a, a < gParallel.length → ∀ b, b < gParallel.length →
          (gParallel.getD a []).count b = (gParallel.getD b []).count a)
      ∧ Reach gParallel 0 1 ∧ Reach gParallel 1 0
      ∧ (edges gParallel).length / 2 = 2
      ∧ (∀ fuel, 6 ≤ fuel → euler_cycle_undirected fuel gParallel 2 0 = some [0, 1])
      ∧ [0, 1].length ≠ (edges gParallel).length / 2 + 1
      ∧ (↑((pairs [0, 1]).map upair) : Multiset (Nat × Nat)) ≠ ↑[(0, 1), (0, 1)]
      ∧ (↑((edges gParallel).map upair) : Multiset (Nat × Nat))
          = ↑[(0, 1), (0, 1), (0, 1), (0, 1)] := by
  refine ⟨by decide, by decide, reach_of_walk gParallel 0 [1] (by decide),
    reach_of_walk gParallel 1 [0] (by decide), by decide, undirected_parallel_run,
    by decide, by decide, by decide⟩

end Euler

namespace Hashmap

variable {K V : Type} [DecidableEq K]

theorem getD_set {α : Type} (l : List (List α)) (i j : Nat) (b : List α) :
    (l.set i b).getD j [] = if j = i ∧ i < l.length then b else l.getD j [] := by
  simp only [List.getD_eq_getElem?_getD, List.getElem?_set]
  by_cases hji : j = i
  · subst hji
    by_cases hj : j < l.length
    · simp [hj]
    · simp [hj, List.getElem?_eq_none (not_lt.1 hj)]
  · have : ¬ i = j := fun h => hji h.symm
    simp [hji, this]

theorem sum_length_set {α : Type} (l : List (List α)) (i : Nat) (b : List α)
    (h : i < l.length) :
    ((l.set i b).map List.length).sum + (l.getD i []).length
      = (l.map List.length).sum + b.length := by
  induction l generalizing i with
  | nil => simp at h
  | cons a l ih =>
    cases i with
    | zero => simp; omega
    | succ i =>
      have := ih i (by simpa using h)
      simp only [List.set_cons_succ, List.map_cons, List.sum_cons, List.getD_cons_succ]
      omega

theorem find?_key_none {b : List (entry_t K V)} {k : K}
    (h : b.find? (fun e => decide (e.key = k)) = none) : k ∉ b.map entry_t.key := by
  intro hk
  obtain ⟨e, he, hek⟩ := List.mem_map.1 hk
  have := List.find?_eq_none.1 h e he
  simp [hek] at this

theorem find_eq_none_iff (Hash : K → Nat) (m : hashmap K V) (k : K) :
    find Hash m k = none ↔
      (m.table.getD (Hash k % m.table_size) []).find? (fun e => decide (e.key = k)) = none := by
  unfold find
  simp

theorem insertPlain_wf (Hash : K → Nat) (m : hashmap K V) (k : K) (v : V) (h : WF Hash m)
    (hk : find Hash m k = none) (hlt : m.map_size < (m.table_size : Int)) :
    WF Hash (insertPlain Hash m k v) := by
  have hi : Hash k % m.table_size < m.table.length := by
    rw [h.size_eq]
    exact Nat.mod_lt _ h.pos
  have hk2 := find?_key_none ((find_eq_none_iff Hash m k).1 hk)
  refine ⟨?_, h.pos, ?_, ?_, ?_, ?_⟩
  · simp [insertPlain, h.size_eq]
  · have := sum_length_set m.table _ (m.table.getD (Hash k % m.table_size) [] ++ [⟨k, v⟩]) hi
    have hc := h.count
    simp only [insertPlain, List.length_append, List.length_singleton] at this ⊢
    omega
  · simp only [insertPlain]
    omega
  · intro j e he
    simp only [insertPlain] at he ⊢
    rw [getD_set] at he
    split_ifs at he with hj
    · rcases List.mem_append.1 he with he | he
      · rw [hj.1]; exact h.placed _ e he
      · rw [List.mem_singleton.1 he, hj.1]
    · exact h.placed j e he
  · intro j
    simp only [insertPlain]
    rw [getD_set]
    split_ifs with hj
    · rw [List.map_append, List.map_singleton]
      refine List.Nodup.append (h.nodup _) (List.nodup_singleton _) ?_
      rw [List.disjoint_singleton]
      exact hk2
    · exact h.nodup j

theorem find_insertPlain (Hash : K → Nat) (m : hashmap K V) (k : K) (v : V) (h : WF Hash m)
    (hk : find Hash m k = none) (k2 : K) :
    find Hash (insertPlain Hash m k v) k2 = if k2 = k then some v else find Hash m k2 := by
  have hi : Hash k % m.table_size < m.table.length := by
    rw [h.size_eq]
    exact Nat.mod_lt _ h.pos
  have hk1 := (find_eq_none_iff Hash m k).1 hk
  unfold find
  simp only [insertPlain]
  rw [getD_set]
  by_cases hkk : k2 = k
  · subst hkk
    rw [if_pos ⟨rfl, hi⟩, List.find?_append, hk1]
    simp
  · simp only [hkk, if_false]
    split_ifs with hj
    · rw [hj.1, List.find?_append]
      have : List.find? (fun e : entry_t K V => decide (e.key = k2)) [⟨k, v⟩] = none := by
        have : ¬ k = k2 := fun h => hkk h.symm
        simp [this]
      rw [this, Option.or_none]
    · rfl

theorem insert_eq_plain (Hash : K → Nat) (fuel : Nat) (m : hashmap K V) (k : K) (v : V)
    (hk : find Hash m k = none) (hlt : m.map_size < (m.table_size : Int)) :
    insert Hash (fuel + 1) m k v = some (insertPlain Hash m k v) := by
  rw [insert]
  have : ¬ (m.map_size ≥ (m.table_size : Int)) := by omega
  simp [hk, this, insertPlain]

theorem getD_insertPlain (Hash : K → Nat) (m : hashmap K V) (k : K) (v : V) (h : WF Hash m)
    (j : Nat) :
    (insertPlain Hash m k v).table.getD j []
      = m.table.getD j [] ++ (if Hash k % m.table_size = j then [⟨k, v⟩] else []) := by
  have hi : Hash k % m.table_size < m.table.length := by
    rw [h.size_eq]
    exact Nat.mod_lt _ h.pos
  simp only [insertPlain]
  rw [getD_set]
  by_cases hj : j = Hash k % m.table_size
  · subst hj
    simp [hi]
  · have : ¬ Hash k % m.table_size = j := fun h => hj h.symm
    simp [hj, this]

theorem fold_insert (Hash : K → Nat) :
    ∀ (es : List (entry_t K V)) (acc : hashmap K V), WF Hash acc →
      acc.map_size + (es.length : Int) ≤ (acc.table_size : Int) →
      (es.map entry_t.key).Nodup →
      (∀ e ∈ es, find Hash acc e.key = none) →
      (∀ f, es.foldlM (fun acc e => insert Hash (f + 1) acc e.key e.val) acc
          = some (insertAll Hash es acc))
        ∧ WF Hash (insertAll Hash es acc)
        ∧ (insertAll Hash es acc).table_size = acc.table_size
        ∧ (insertAll Hash es acc).map_size = acc.map_size + (es.length : Int)
        ∧ (∀ k, find Hash (insertAll Hash es acc) k
            = (find Hash acc k).or
                ((es.find? (fun e => decide (e.key = k))).map entry_t.val))
        ∧ (∀ j, (insertAll Hash es acc).table.getD j []
            = acc.table.getD j []
                ++ es.filter (fun e => decide (Hash e.key % acc.table_size = j))) := by
  intro es
  induction es with
  | nil =>
    intro acc h _ _ _
    exact ⟨fun _ => rfl, h, rfl, by simp [insertAll], by simp [insertAll], by simp [insertAll]⟩
  | cons e es ih =>
    intro acc h hsz hnd hfresh
    have hk := hfresh e (List.mem_cons_self _ _)
    rw [List.length_cons] at hsz
    have hlt : acc.map_size < (acc.table_size : Int) := by push_cast at hsz; omega
    have hwf := insertPlain_wf Hash acc e.key e.val h hk hlt
    rw [List.map_cons, List.nodup_cons] at hnd
    have hfresh2 : ∀ e2 ∈ es, find Hash (insertPlain Hash acc e.key e.val) e2.key = none := by
      intro e2 he2
      rw [find_insertPlain Hash acc e.key e.val h hk]
      have hne : e2.key ≠ e.key := by
        intro heq
        exact hnd.1 (heq ▸ List.mem_map_of_mem _ he2)
      rw [if_neg hne]
      exact hfresh e2 (List.mem_cons_of_mem _ he2)
    have hts : (insertPlain Hash acc e.key e.val).table_size = acc.table_size := rfl
    have hms : (insertPlain Hash acc e.key e.val).map_size = acc.map_size + 1 := rfl
    obtain ⟨hfold, hwf2, hts2, hms2, hfind2, hb2⟩ :=
      ih (insertPlain Hash acc e.key e.val) hwf (by rw [hts, hms]; push_cast at hsz ⊢; omega)
        hnd.2 hfresh2
    have hcons : insertAll Hash (e :: es) acc
        = insertAll Hash es (insertPlain Hash acc e.key e.val) := rfl
    rw [hcons]
    refine ⟨?_, hwf2, by rw [hts2, hts], ?_, ?_, ?_⟩
    · intro f
      rw [List.foldlM_cons, insert_eq_plain Hash f acc e.key e.val hk hlt]
      exact hfold f
    · rw [hms2, hms, List.length_cons]
      push_cast
      omega
    · intro k
      rw [hfind2 k, find_insertPlain Hash acc e.key e.val h hk, List.find?_cons]
      by_cases hke : k = e.key
      · subst hke
        simp [hk]
      · have : ¬ e.key = k := fun h => hke h.symm
        simp [hke, this]
    · intro j
      rw [hb2 j, getD_insertPlain Hash acc e.key e.val h, hts, List.filter_cons,
        List.append_assoc]
      by_cases hj : Hash e.key % acc.table_size = j
      · simp [hj]
      · simp [hj]

theorem foldlM_flatten {α β : Type} (g : β → α → Option β) :
    ∀ (L : List (List α)) (a : β),
      L.foldlM (fun acc b => b.foldlM g acc) a = L.flatten.foldlM g a := by
  intro L
  induction L with
  | nil => intro a; rfl
  | cons b L ih =>
    intro a
    rw [List.foldlM_cons, List.flatten_cons, List.foldlM_append]
    cases hb : b.foldlM g a with
    | none => rfl
    | some a2 => exact ih a2

theorem map_getD_range {α : Type} (l : List (List α)) :
    (List.range l.length).map (fun i => l.getD i []) = l := by
  apply List.ext_getElem
  · simp
  · intro n h1 h2
    simp [List.getD_eq_getElem?_getD, List.getElem?_eq_getElem h2]

theorem foldlM_range_getD {α β : Type} (g : β → α → Option β) (l : List (List α)) (a : β) :
    (List.range l.length).foldlM (fun acc i => (l.getD i []).foldlM g acc) a
      = l.flatten.foldlM g a := by
  rw [← foldlM_flatten]
  conv_rhs => rw [← map_getD_range l]
  rw [List.foldlM_map]

theorem find?_flatten_bucket {α : Type} (p : α → Bool) :
    ∀ (L : List (List α)) (i : Nat),
      (∀ j, j ≠ i → ∀ e ∈ L.getD j [], p e = false) →
      L.flatten.find? p = (L.getD i []).find? p := by
  intro L
  induction L with
  | nil => intro i _; simp
  | cons b L ih =>
    intro i h
    rw [List.flatten_cons, List.find?_append]
    cases i with
    | zero =>
      have hnone : L.flatten.find? p = none := by
        rw [List.find?_eq_none]
        intro e he
        obtain ⟨l, hl, hel⟩ := List.mem_flatten.1 he
        obtain ⟨n, hn, rfl⟩ := List.getElem_of_mem hl
        have := h (n + 1) (by omega) e (by simpa [List.getD_eq_getElem?_getD, hn] using hel)
        simp [this]
      simp [hnone]
    | succ i =>
      have hb : b.find? p = none := by
        rw [List.find?_eq_none]
        intro e he
        have := h 0 (by omega) e (by simpa using he)
        simp [this]
      rw [hb, Option.none_or]
      simpa using ih i (fun j hj e he => h (j + 1) (by omega) e (by simpa using he))

theorem countP_flatten_bucket {α : Type} (p : α → Bool) :
    ∀ (L : List (List α)) (i : Nat),
      (∀ j, j ≠ i → ∀ e ∈ L.getD j [], p e = false) →
      L.flatten.countP p = (L.getD i []).countP p := by
  intro L
  induction L with
  | nil => intro i _; simp
  | cons b L ih =>
    intro i h
    rw [List.flatten_cons, List.countP_append]
    cases i with
    | zero =>
      have hzero : L.flatten.countP p = 0 := by
        rw [List.countP_eq_zero]
        intro e he
        obtain ⟨l, hl, hel⟩ := List.mem_flatten.1 he
        obtain ⟨n, hn, rfl⟩ := List.getElem_of_mem hl
        have := h (n + 1) (by omega) e (by simpa [List.getD_eq_getElem?_getD, hn] using hel)
        simp [this]
      simp [hzero]
    | succ i =>
      have hb : b.countP p = 0 := by
        rw [List.countP_eq_zero]
        intro e he
        have := h 0 (by omega) e (by simpa using he)
        simp [this]
      rw [hb, Nat.zero_add]
      simpa using ih i (fun j hj e he => h (j + 1) (by omega) e (by simpa using he))

theorem sum_length_replicate {α : Type} (n : Nat) :
    ((List.replicate n ([] : List α)).map List.length).sum = 0 := by
  induction n with
  | zero => rfl
  | succ n ih => simp [List.replicate_succ, ih]

theorem getD_replicate_nil {α : Type} (n j : Nat) :
    (List.replicate n ([] : List α)).getD j [] = [] := by
  rw [List.getD_eq_getElem?_getD]
  by_cases h : j < n
  · simp [List.getElem?_replicate, h]
  · simp [List.getElem?_replicate, h]

theorem new_wf (Hash : K → Nat) (size : Nat) (h : 1 ≤ size) :
    WF Hash (hashmap.new size : hashmap K V) := by
  refine ⟨by simp [hashmap.new], h, ?_, ?_, ?_, ?_⟩
  · simp only [hashmap.new]
    rw [sum_length_replicate]
    rfl
  · simp only [hashmap.new]
    omega
  · intro i e he
    simp only [hashmap.new] at he
    rw [getD_replicate_nil] at he
    simp at he
  · intro i
    simp only [hashmap.new]
    rw [getD_replicate_nil]
    exact List.nodup_nil

theorem find_new (Hash : K → Nat) (size : Nat) (k : K) :
    find Hash (hashmap.new size : hashmap K V) k = none := by
  unfold find
  simp only [hashmap.new]
  rw [getD_replicate_nil]
  rfl

theorem find_eq_entries (Hash : K → Nat) (m : hashmap K V) (h : WF Hash m) (k : K) :
    find Hash m k = ((entries m).find? (fun e => decide (e.key = k))).map entry_t.val := by
  unfold find entries
  rw [find?_flatten_bucket _ m.table (Hash k % m.table_size)]
  intro j hj e he
  have := h.placed j e he
  simp only [decide_eq_false_iff_not]
  intro hek
  rw [hek] at this
  exact hj this.symm

theorem entries_keys_nodup (Hash : K → Nat) (m : hashmap K V) (h : WF Hash m) :
    ((entries m).map entry_t.key).Nodup := by
  rw [List.nodup_iff_count_le_one]
  intro k
  rw [List.count, List.countP_map]
  unfold entries
  rw [countP_flatten_bucket _ m.table (Hash k % m.table_size)]
  · have := List.nodup_iff_count_le_one.1 (h.nodup (Hash k % m.table_size)) k
    rw [List.count, List.countP_map] at this
    exact this
  · intro j hj e he
    have := h.placed j e he
    simp only [Function.comp, beq_eq_false_iff_ne]
    intro hek
    rw [hek] at this
    exact hj this.symm

theorem length_entries (m : hashmap K V) :
    (entries m).length = (m.table.map List.length).sum := by
  unfold entries
  rw [List.length_flatten]

theorem rehash_spec (Hash : K → Nat) (m : hashmap K V) (h : WF Hash m) :
    (∀ f, rehashWith (insert Hash (f + 1)) m = some (rehashed Hash m))
      ∧ WF Hash (rehashed Hash m)
      ∧ (rehashed Hash m).table_size = 2 * m.table_size
      ∧ (rehashed Hash m).map_size = m.map_size
      ∧ (∀ k, find Hash (rehashed Hash m) k = find Hash m k)
      ∧ (∀ j, (rehashed Hash m).table.getD j []
          = (entries m).filter (fun e => decide (Hash e.key % (2 * m.table_size) = j))) := by
  have hlen := length_entries m
  have hc := h.count
  have hcap := h.cap
  have hpos := h.pos
  obtain ⟨hfold, hwf2, hts2, hms2, hfind2, hb2⟩ :=
    fold_insert Hash (entries m) (hashmap.new (2 * m.table_size))
      (new_wf Hash _ (by omega))
      (by simp only [hashmap.new]; omega)
      (entries_keys_nodup Hash m h)
      (fun e _ => find_new Hash _ _)
  refine ⟨?_, hwf2, hts2, ?_, ?_, ?_⟩
  · intro f
    unfold rehashWith
    simp only []
    rw [← h.size_eq, foldlM_range_getD]
    rw [h.size_eq]
    exact hfold f
  · unfold rehashed
    rw [hms2]
    simp only [hashmap.new]
    omega
  · intro k
    unfold rehashed
    rw [hfind2 k, find_new, Option.none_or, find_eq_entries Hash m h]
  · intro j
    unfold rehashed
    rw [hb2 j]
    simp only [hashmap.new]
    rw [getD_replicate_nil, List.nil_append]

theorem insert_present (Hash : K → Nat) (fuel : Nat) (m : hashmap K V) (k : K) (v : V)
    (hk : (find Hash m k).isSome) : insert Hash (fuel + 1) m k v = some m := by
  rw [insert]
  simp [hk]

theorem insert_spec (Hash : K → Nat) (m : hashmap K V) (k : K) (v : V) (h : WF Hash m)
    (hk : find Hash m k = none) :
    (∀ fuel, 2 ≤ fuel → insert Hash fuel m k v = some (inserted Hash m k v))
      ∧ WF Hash (inserted Hash m k v)
      ∧ (inserted Hash m k v).map_size = m.map_size + 1
      ∧ (inserted Hash m k v).table_size
          = (if m.map_size = (m.table_size : Int) then 2 * m.table_size else m.table_size)
      ∧ (∀ k2, find Hash (inserted Hash m k v) k2
          = if k2 = k then some v else find Hash m k2) := by
  have hcap := h.cap
  have hpos := h.pos
  unfold inserted
  by_cases hfull : m.map_size ≥ (m.table_size : Int)
  · have heq : m.map_size = (m.table_size : Int) := by omega
    obtain ⟨hre, hwf1, hts1, hms1, hfind1, -⟩ := rehash_spec Hash m h
    have hk1 : find Hash (rehashed Hash m) k = none := by rw [hfind1, hk]
    have hlt1 : (rehashed Hash m).map_size < ((rehashed Hash m).table_size : Int) := by
      rw [hms1, hts1]; push_cast; omega
    rw [if_pos hfull]
    refine ⟨?_, insertPlain_wf Hash _ k v hwf1 hk1 hlt1, ?_, ?_, ?_⟩
    · intro fuel hf
      obtain ⟨g, rfl⟩ : ∃ g, fuel = g + 2 := ⟨fuel - 2, by omega⟩
      rw [insert]
      simp only [hk, Option.isSome_none, Bool.false_eq_true, if_false, hfull, if_true, hre g]
      rfl
    · simp only [insertPlain]
      omega
    · simp only [insertPlain, heq, if_true]
      exact hts1
    · intro k2
      rw [find_insertPlain Hash _ k v hwf1 hk1, hfind1]
  · have hlt : m.map_size < (m.table_size : Int) := by omega
    have hne : ¬ m.map_size = (m.table_size : Int) := by omega
    rw [if_neg hfull]
    refine ⟨?_, insertPlain_wf Hash m k v h hk hlt, rfl, ?_, ?_⟩
    · intro fuel hf
      obtain ⟨g, rfl⟩ : ∃ g, fuel = g + 1 := ⟨fuel - 1, by omega⟩
      exact insert_eq_plain Hash g m k v hk hlt
    · simp only [insertPlain, hne, if_false]
    · intro k2
      exact find_insertPlain Hash m k v h hk k2

theorem foldlM_mono {α β : Type} (g g2 : β → α → Option β)
    (hg : ∀ a x r, g a x = some r → g2 a x = some r) :
    ∀ (l : List α) (a r : β), l.foldlM g a = some r → l.foldlM g2 a = some r := by
  intro l
  induction l with
  | nil => intro a r h; exact h
  | cons x l ih =>
    intro a r h
    rw [List.foldlM_cons] at h ⊢
    cases hx : g a x with
    | none => rw [hx] at h; simp at h
    | some b =>
      rw [hx] at h
      rw [hg a x b hx]
      exact ih b r h

theorem rehashWith_mono (ins ins2 : hashmap K V → K → V → Option (hashmap K V))
    (hins : ∀ a k v r, ins a k v = some r → ins2 a k v = some r) (m r : hashmap K V)
    (h : rehashWith ins m = some r) : rehashWith ins2 m = some r := by
  unfold rehashWith at h ⊢
  refine foldlM_mono _ _ ?_ _ _ _ h
  intro a i r2 hr
  exact foldlM_mono _ _ (fun a e r3 h3 => hins a e.key e.val r3 h3) _ _ _ hr

theorem insert_mono (Hash : K → Nat) :
    ∀ (fuel : Nat) (m : hashmap K V) (k : K) (v : V) (r : hashmap K V),
      insert Hash fuel m k v = some r →
      ∀ fuel2, fuel ≤ fuel2 → insert Hash fuel2 m k v = some r := by
  intro fuel
  induction fuel with
  | zero => intro m k v r h; simp [insert] at h
  | succ fuel ih =>
    intro m k v r h fuel2 hle
    obtain ⟨g, rfl⟩ : ∃ g, fuel2 = g + 1 := ⟨fuel2 - 1, by omega⟩
    rw [insert] at h ⊢
    by_cases hp : (find Hash m k).isSome
    · simpa [hp] using h
    · simp only [hp, Bool.false_eq_true, if_false] at h ⊢
      by_cases hfull : m.map_size ≥ (m.table_size : Int)
      · simp only [hfull, if_true] at h ⊢
        cases hre : rehashWith (insert Hash fuel) m with
        | none => rw [hre] at h; simp at h
        | some m1 =>
          rw [hre] at h
          rw [rehashWith_mono _ _ (fun a k v r hr => ih a k v r hr g (by omega)) m m1 hre]
          exact h
      · simpa [hfull] using h

theorem insert_result (Hash : K → Nat) (fuel : Nat) (m m2 : hashmap K V) (k : K) (v : V)
    (h : WF Hash m) (hins : insert Hash fuel m k v = some m2) :
    m2 = if (find Hash m k).isSome then m else inserted Hash m k v := by
  have hmono := insert_mono Hash fuel m k v m2 hins (fuel + 2) (by omega)
  by_cases hp : (find Hash m k).isSome
  · rw [if_pos hp]
    rw [insert_present Hash (fuel + 1) m k v hp] at hmono
    exact (Option.some.inj hmono).symm
  · rw [if_neg hp]
    have hk : find Hash m k = none := by simpa using hp
    rw [(insert_spec Hash m k v h hk).1 (fuel + 2) (by omega)] at hmono
    exact (Option.some.inj hmono).symm

theorem insert_wf (Hash : K → Nat) (fuel : Nat) (m m2 : hashmap K V) (k : K) (v : V)
    (h : WF Hash m) (hins : insert Hash fuel m k v = some m2) : WF Hash m2 := by
  rw [insert_result Hash fuel m m2 k v h hins]
  by_cases hp : (find Hash m k).isSome
  · rw [if_pos hp]; exact h
  · rw [if_neg hp]
    exact (insert_spec Hash m k v h (by simpa using hp)).2.1

theorem remove_absent (Hash : K → Nat) (m : hashmap K V) (k : K)
    (hk : find Hash m k = none) : remove Hash m k = m := by
  unfold remove
  simp only []
  rw [(find_eq_none_iff Hash m k).1 hk]

theorem remove_spec (Hash : K → Nat) (m : hashmap K V) (k : K) (h : WF Hash m) :
    WF Hash (remove Hash m k)
      ∧ (remove Hash m k).table_size = m.table_size
      ∧ (remove Hash m k).map_size = (if (find Hash m k).isSome then m.map_size - 1
          else m.map_size)
      ∧ (∀ k2, find Hash (remove Hash m k) k2 = if k2 = k then none else find Hash m k2) := by
  cases hf : (m.table.getD (Hash k % m.table_size) []).find? (fun e => decide (e.key = k)) with
  | none =>
    have hk : find Hash m k = none := (find_eq_none_iff Hash m k).2 hf
    rw [remove_absent Hash m k hk]
    refine ⟨h, rfl, by simp [hk], ?_⟩
    intro k2
    by_cases hkk : k2 = k
    · rw [if_pos hkk, hkk, hk]
    · rw [if_neg hkk]
  | some e =>
    have hi : Hash k % m.table_size < m.table.length := by
      rw [h.size_eq]
      exact Nat.mod_lt _ h.pos
    have hsome : (find Hash m k).isSome := by
      unfold find
      simp only []
      rw [hf]
      rfl
    have hrem : remove Hash m k = { m with
        table := m.table.set (Hash k % m.table_size)
          ((m.table.getD (Hash k % m.table_size) []).eraseP (fun e => decide (e.key = k)))
        map_size := m.map_size - 1 } := by
      unfold remove
      simp only []
      rw [hf]
    have hmem : e ∈ m.table.getD (Hash k % m.table_size) [] := List.mem_of_find?_eq_some hf
    have hpe : decide (e.key = k) = true := by
      have := List.find?_some hf
      exact this
    obtain ⟨a, l1, l2, hl1, hpa, hsplit, herase⟩ :=
      List.exists_of_eraseP (p := fun e : entry_t K V => decide (e.key = k)) hmem hpe
    have hak : a.key = k := by simpa using hpa
    have hnd := h.nodup (Hash k % m.table_size)
    rw [hsplit, List.map_append, List.map_cons, hak] at hnd
    have hk1 : k ∉ l1.map entry_t.key := by
      intro hm
      obtain ⟨x, hx, hxk⟩ := List.mem_map.1 hm
      have := hl1 x hx
      simp [hxk] at this
    have hk2 : k ∉ l2.map entry_t.key := by
      have := (List.nodup_append.1 hnd).2.1
      exact (List.nodup_cons.1 this).1
    rw [hrem]
    refine ⟨⟨?_, h.pos, ?_, ?_, ?_, ?_⟩, rfl, by simp [hsome], ?_⟩
    · simp [h.size_eq]
    · have := sum_length_set m.table _
        ((m.table.getD (Hash k % m.table_size) []).eraseP (fun e => decide (e.key = k))) hi
      have hc := h.count
      rw [herase] at this ⊢
      rw [hsplit] at this
      simp only [List.length_append, List.length_cons] at this ⊢
      omega
    · have := h.cap
      simp only []
      omega
    · intro j x hx
      simp only [] at hx ⊢
      rw [getD_set] at hx
      split_ifs at hx with hj
      · rw [hj.1]
        exact h.placed _ x (List.mem_of_mem_eraseP hx)
      · exact h.placed j x hx
    · intro j
      simp only []
      rw [getD_set]
      split_ifs with hj
      · exact List.Nodup.sublist ((List.eraseP_sublist _).map _) (h.nodup _)
      · exact h.nodup j
    · intro k2
      unfold find
      simp only []
      rw [getD_set]
      by_cases hkk : k2 = k
      · subst hkk
        rw [if_pos ⟨rfl, hi⟩, if_pos rfl, herase]
        have : List.find? (fun e : entry_t K V => decide (e.key = k2)) (l1 ++ l2) = none := by
          rw [List.find?_eq_none]
          intro x hx
          simp only [decide_eq_true_eq]
          intro hxk
          rcases List.mem_append.1 hx with hx | hx
          · exact hk1 (hxk ▸ List.mem_map_of_mem _ hx)
          · exact hk2 (hxk ▸ List.mem_map_of_mem _ hx)
        rw [this]
        rfl
      · rw [if_neg hkk]
        split_ifs with hj
        · rw [hj.1, herase, hsplit, List.find?_append, List.find?_append, List.find?_cons]
          have : decide (a.key = k2) = false := by
            simp only [decide_eq_false_iff_not]
            rw [hak]
            exact fun h => hkk h.symm
          rw [this]
        · rfl

theorem map_key_assignFirst (k : K) (v : V) (b : List (entry_t K V)) :
    (assignFirst k v b).map entry_t.key = b.map entry_t.key := by
  induction b with
  | nil => rfl
  | cons e b ih =>
    rw [assignFirst]
    split_ifs with h
    · rfl
    · rw [List.map_cons, List.map_cons, ih]

theorem store_wf (Hash : K → Nat) (m : hashmap K V) (k : K) (v : V) (h : WF Hash m) :
    WF Hash (store Hash m k v) := by
  have hi : Hash k % m.table_size < m.table.length := by
    rw [h.size_eq]
    exact Nat.mod_lt _ h.pos
  have hlen : (assignFirst k v (m.table.getD (Hash k % m.table_size) [])).length
      = (m.table.getD (Hash k % m.table_size) []).length := by
    have := congrArg List.length (map_key_assignFirst k v (m.table.getD (Hash k % m.table_size) []))
    simpa using this
  refine ⟨by simp [store, h.size_eq], h.pos, ?_, h.cap, ?_, ?_⟩
  · have := sum_length_set m.table _
      (assignFirst k v (m.table.getD (Hash k % m.table_size) [])) hi
    have hc := h.count
    simp only [store]
    omega
  · intro j x hx
    simp only [store] at hx ⊢
    rw [getD_set] at hx
    split_ifs at hx with hj
    · have hxk : x.key ∈ (assignFirst k v (m.table.getD (Hash k % m.table_size) [])).map
          entry_t.key := List.mem_map_of_mem _ hx
      rw [map_key_assignFirst] at hxk
      obtain ⟨y, hy, hyk⟩ := List.mem_map.1 hxk
      rw [hj.1, ← hyk]
      exact h.placed _ y hy
    · exact h.placed j x hx
  · intro j
    simp only [store]
    rw [getD_set]
    split_ifs with hj
    · rw [map_key_assignFirst]
      exact h.nodup _
    · exact h.nodup j

theorem index_result [Inhabited V] (Hash : K → Nat) (fuel : Nat) (m m2 : hashmap K V) (k : K)
    (v : V) (hidx : index Hash fuel m k = some (v, m2)) :
    insert Hash (fuel + 1) m k default = some m2 := by
  unfold index at hidx
  cases hf : find Hash m k with
  | some v0 =>
    rw [hf] at hidx
    simp only [Option.some.injEq, Prod.mk.injEq] at hidx
    rw [insert_present Hash fuel m k default (by rw [hf]; rfl), hidx.2]
  | none =>
    rw [hf] at hidx
    simp only [] at hidx
    cases hins : insert Hash fuel m k default with
    | none => rw [hins] at hidx; simp at hidx
    | some m1 =>
      rw [hins] at hidx
      simp only [] at hidx
      cases hf1 : find Hash m1 k with
      | none => rw [hf1] at hidx; simp at hidx
      | some v1 =>
        rw [hf1] at hidx
        simp only [Option.some.injEq, Prod.mk.injEq] at hidx
        rw [← hidx.2]
        exact insert_mono Hash fuel m k default m1 hins (fuel + 1) (by omega)

theorem reachable_wf [Inhabited V] (Hash : K → Nat) (m : hashmap K V)
    (h : Reachable Hash m) : WF Hash m := by
  induction h with
  | new size hs => exact new_wf Hash size hs
  | insert fuel k v _ hins ih => exact insert_wf Hash fuel _ _ k v ih hins
  | remove k _ ih => exact (remove_spec Hash _ k ih).1
  | index fuel k v _ hidx ih =>
    exact insert_wf Hash (fuel + 1) _ _ k default ih (index_result Hash fuel _ _ k v hidx)
  | store k v _ ih => exact store_wf Hash _ k v ih

theorem demoFull_reachable : Reachable idHash demoFull :=
  Reachable.insert 1 0 10 (Reachable.new 1 (by decide)) (by decide)

theorem demoRoomy_reachable : Reachable idHash demoRoomy :=
  Reachable.insert 1 5 50 (Reachable.new 4 (by decide)) (by decide)

theorem mem_keys_iff (Hash : K → Nat) (m : hashmap K V) (h : WF Hash m) (k : K) :
    k ∈ keys m ↔ (find Hash m k).isSome := by
  rw [find_eq_entries Hash m h, Option.isSome_map', List.find?_isSome]
  unfold keys
  rw [List.mem_map]
  constructor
  · rintro ⟨e, he, hek⟩
    exact ⟨e, he, by simpa using hek⟩
  · rintro ⟨e, he, hek⟩
    exact ⟨e, he, by simpa using hek⟩

/-- C5: in every state reachable from a constructor call with table size at least 1,
`size()` (`map_size`) is the total number of entries over all buckets, which is the number
of distinct keys stored, and these are exactly the keys `find` finds; `insert` of a key that
is present changes neither the size nor the value found. -/
theorem size_invariant [Inhabited V] (Hash : K → Nat) (m : hashmap K V)
    (hr : Reachable Hash m) :
    size m = ((m.table.map List.length).sum : Nat)
      ∧ (m.table.map List.length).sum = (keys m).toFinset.card
      ∧ (∀ k, k ∈ (keys m).toFinset ↔ (find Hash m k).isSome)
      ∧ (∀ k v fuel, 1 ≤ fuel → (find Hash m k).isSome →
          ∃ m2, insert Hash fuel m k v = some m2 ∧ size m2 = size m
            ∧ find Hash m2 k = find Hash m k) := by
  have h := reachable_wf Hash m hr
  refine ⟨h.count, ?_, ?_, ?_⟩
  · unfold keys
    rw [List.toFinset_card_of_nodup (entries_keys_nodup Hash m h), List.length_map,
      length_entries]
  · intro k
    rw [List.mem_toFinset]
    exact mem_keys_iff Hash m h k
  · intro k v fuel hf hk
    obtain ⟨g, rfl⟩ : ∃ g, fuel = g + 1 := ⟨fuel - 1, by omega⟩
    exact ⟨m, insert_present Hash g m k v hk, rfl, rfl⟩

theorem size_invariant_witness :
    size demoFull = (((demoFull.table.map List.length).sum : Nat) : Int)
      ∧ (demoFull.table.map List.length).sum = (keys demoFull).toFinset.card
      ∧ (∀ k, k ∈ (keys demoFull).toFinset ↔ (find idHash demoFull k).isSome)
      ∧ (∀ k v fuel, 1 ≤ fuel → (find idHash demoFull k).isSome →
          ∃ m2, insert idHash fuel demoFull k v = some m2 ∧ size m2 = size demoFull
            ∧ find idHash m2 k = find idHash demoFull k) :=
  size_invariant idHash demoFull demoFull_reachable

/-- C6: in every reachable state, for a key that is absent, `insert(k, v)` returns (for every
fuel of at least 2) a state in which `find(k)` points to `v`; the table keeps its size when
the insert fits and has twice the size when `map_size` had reached `table_size`. -/
theorem insert_find_roundtrip [Inhabited V] (Hash : K → Nat) (m : hashmap K V)
    (hr : Reachable Hash m) (k : K) (v : V) (hk : find Hash m k = none) :
    ∃ m2, (∀ fuel, 2 ≤ fuel → insert Hash fuel m k v = some m2)
      ∧ find Hash m2 k = some v
      ∧ m2.table_size
          = (if m.map_size = (m.table_size : Int) then 2 * m.table_size else m.table_size) := by
  have h := reachable_wf Hash m hr
  obtain ⟨h1, -, -, h4, h5⟩ := insert_spec Hash m k v h hk
  refine ⟨inserted Hash m k v, h1, ?_, h4⟩
  rw [h5 k, if_pos rfl]

theorem insert_find_roundtrip_rehash :
    ∃ m2, (∀ fuel, 2 ≤ fuel → insert idHash fuel demoFull 1 11 = some m2)
      ∧ find idHash m2 1 = some 11
      ∧ m2.table_size = 2 :=
  insert_find_roundtrip idHash demoFull demoFull_reachable 1 11 (by decide)

/-- C7: in every reachable state in which `k` is present with value `v`, `insert(k, v2)`
returns the state unchanged (buckets, `table_size` and `map_size`, so no rehash even when
the table is full) and `find(k)` still points to `v`. -/
theorem insert_first_write_wins [Inhabited V] (Hash : K → Nat) (m : hashmap K V)
    (hr : Reachable Hash m) (k : K) (v v2 : V) (hk : find Hash m k = some v)
    (fuel : Nat) (hf : 1 ≤ fuel) :
    ∃ m2, insert Hash fuel m k v2 = some m2
      ∧ m2.table = m.table ∧ m2.table_size = m.table_size ∧ m2.map_size = m.map_size
      ∧ find Hash m2 k = some v := by
  obtain ⟨g, rfl⟩ : ∃ g, fuel = g + 1 := ⟨fuel - 1, by omega⟩
  exact ⟨m, insert_present Hash g m k v2 (by rw [hk]; rfl), rfl, rfl, rfl, hk⟩

theorem insert_first_write_wins_full :
    ∃ m2, insert idHash 1 demoFull 0 99 = some m2
      ∧ m2.table = demoFull.table ∧ m2.table_size = demoFull.table_size
      ∧ m2.map_size = demoFull.map_size
      ∧ find idHash m2 0 = some 10 :=
  insert_first_write_wins idHash demoFull demoFull_reachable 0 10 99 (by decide) 1 (le_refl 1)

/-- C8: in every reachable state in which `k` is present, after `remove(k)` the call
`find(k)` returns null, `size()` is one less, and `find` of every other key is unchanged. -/
theorem remove_present [Inhabited V] (Hash : K → Nat) (m : hashmap K V)
    (hr : Reachable Hash m) (k : K) (hk : (find Hash m k).isSome) :
    find Hash (remove Hash m k) k = none
      ∧ size (remove Hash m k) = size m - 1
      ∧ (∀ k2, k2 ≠ k → find Hash (remove Hash m k) k2 = find Hash m k2) := by
  have h := reachable_wf Hash m hr
  obtain ⟨-, -, h3, h4⟩ := remove_spec Hash m k h
  refine ⟨?_, ?_, ?_⟩
  · rw [h4 k, if_pos rfl]
  · unfold size
    rw [h3, if_pos hk]
  · intro k2 hne
    rw [h4 k2, if_neg hne]

theorem remove_present_witness :
    find idHash (remove idHash demoRoomy 5) 5 = none
      ∧ size (remove idHash demoRoomy 5) = size demoRoomy - 1
      ∧ (∀ k2, k2 ≠ 5 → find idHash (remove idHash demoRoomy 5) k2 = find idHash demoRoomy k2) :=
  remove_present idHash demoRoomy demoRoomy_reachable 5 (by decide)

/-- C9: in every reachable state, `remove(k)` of a key that is absent returns the very same
state (every bucket, `table_size` and `map_size`), so removing twice equals removing once. -/
theorem remove_absent_noop [Inhabited V] (Hash : K → Nat) (m : hashmap K V)
    (hr : Reachable Hash m) (k : K) (hk : find Hash m k = none) :
    remove Hash m k = m
      ∧ remove Hash (remove Hash m k) k = remove Hash m k := by
  have h1 := remove_absent Hash m k hk
  refine ⟨h1, ?_⟩
  rw [h1, h1]

theorem remove_absent_noop_witness :
    remove idHash demoRoomy 1 = demoRoomy
      ∧ remove idHash (remove idHash demoRoomy 1) 1 = remove idHash demoRoomy 1 :=
  remove_absent_noop idHash demoRoomy demoRoomy_reachable 1 (by decide)

/-- C10: in every reachable state, `operator[]` on an absent key returns (for every fuel of
at least 2) a reference to a value equal to `val_t()`; afterwards the key is present with
that value and `size()` is one larger. -/
theorem index_auto_vivification [Inhabited V] (Hash : K → Nat) (m : hashmap K V)
    (hr : Reachable Hash m) (k : K) (hk : find Hash m k = none) :
    ∃ m2, (∀ fuel, 2 ≤ fuel → index Hash fuel m k = some (default, m2))
      ∧ find Hash m2 k = some default
      ∧ size m2 = size m + 1 := by
  have h := reachable_wf Hash m hr
  obtain ⟨h1, -, h3, -, h5⟩ := insert_spec Hash m k default h hk
  have hf : find Hash (inserted Hash m k default) k = some default := by
    rw [h5 k, if_pos rfl]
  refine ⟨inserted Hash m k default, ?_, hf, h3⟩
  intro fuel hfuel
  unfold index
  rw [hk]
  simp only []
  rw [h1 fuel hfuel]
  simp only []
  rw [hf]

theorem index_auto_vivification_witness :
    ∃ m2, (∀ fuel, 2 ≤ fuel → index idHash fuel demoFull 7 = some (0, m2))
      ∧ find idHash m2 7 = some 0
      ∧ size m2 = size demoFull + 1 :=
  index_auto_vivification idHash demoFull demoFull_reachable 7 (by decide)

theorem reachableFrom_reachable [Inhabited V] (Hash : K → Nat) (size0 : Nat) (h0 : 1 ≤ size0)
    (m : hashmap K V) (h : ReachableFrom Hash size0 m) : Reachable Hash m := by
  induction h with
  | new => exact Reachable.new size0 h0
  | insert fuel k v _ hins ih => exact Reachable.insert fuel k v ih hins
  | remove k _ ih => exact Reachable.remove k ih
  | index fuel k v _ hidx ih => exact Reachable.index fuel k v ih hidx
  | store k v _ ih => exact Reachable.store k v ih

theorem find?_assignFirst_same (k : K) (v : V) (b : List (entry_t K V)) :
    (assignFirst k v b).find? (fun e => decide (e.key = k))
      = (b.find? (fun e => decide (e.key = k))).map (fun e => ⟨e.key, v⟩) := by
  induction b with
  | nil => rfl
  | cons e b ih =>
    rw [assignFirst]
    by_cases h : e.key = k
    · simp [h]
    · simp [h, ih]

theorem find?_assignFirst_other (k k2 : K) (hne : k2 ≠ k) (v : V) (b : List (entry_t K V)) :
    (assignFirst k v b).find? (fun e => decide (e.key = k2))
      = b.find? (fun e => decide (e.key = k2)) := by
  have hkk : ¬ k = k2 := fun h => hne h.symm
  induction b with
  | nil => rfl
  | cons e b ih =>
    rw [assignFirst]
    by_cases h : e.key = k
    · have h2 : ¬ e.key = k2 := by rw [h]; exact hkk
      rw [if_pos h, List.find?_cons, List.find?_cons]
      simp only [h, hkk, h2, decide_False]
    · rw [if_neg h, List.find?_cons, List.find?_cons, ih]

theorem find_store (Hash : K → Nat) (m : hashmap K V) (k : K) (v : V) (h : WF Hash m)
    (k2 : K) :
    find Hash (store Hash m k v) k2
      = if k2 = k then (find Hash m k).map (fun _ => v) else find Hash m k2 := by
  have hi : Hash k % m.table_size < m.table.length := by
    rw [h.size_eq]
    exact Nat.mod_lt _ h.pos
  unfold find
  simp only [store]
  rw [getD_set]
  by_cases hkk : k2 = k
  · subst hkk
    rw [if_pos ⟨rfl, hi⟩, if_pos rfl, find?_assignFirst_same]
    cases (m.table.getD (Hash k2 % m.table_size) []).find? (fun e => decide (e.key = k2)) <;> rfl
  · rw [if_neg hkk]
    split_ifs with hj
    · rw [find?_assignFirst_other k k2 hkk, hj.1]
    · rfl

theorem index_eq [Inhabited V] (Hash : K → Nat) (m : hashmap K V) (k : K) (h : WF Hash m)
    (fuel : Nat) (hf : 2 ≤ fuel) :
    index Hash fuel m k
      = some (match find Hash m k with
          | some v => (v, m)
          | none => (default, inserted Hash m k default)) := by
  unfold index
  cases hk : find Hash m k with
  | some v => rfl
  | none =>
    obtain ⟨h1, -, -, -, h5⟩ := insert_spec Hash m k default h hk
    simp only []
    rw [h1 fuel hf]
    simp only []
    rw [h5 k, if_pos rfl]

theorem flatten_set_append {α : Type} (l : List (List α)) (i : Nat) (x : List α)
    (h : i < l.length) :
    (l.set i (l.getD i [] ++ x)).flatten.Perm (l.flatten ++ x) := by
  induction l generalizing i with
  | nil => simp at h
  | cons a l ih =>
    cases i with
    | zero =>
      simp only [List.set_cons_zero, List.flatten_cons, List.getD_cons_zero, List.append_assoc]
      exact List.Perm.append_left _ List.perm_append_comm
    | succ i =>
      simp only [List.set_cons_succ, List.flatten_cons, List.getD_cons_succ, List.append_assoc]
      exact List.Perm.append_left _ (ih i (by simpa using h))

theorem entries_insertPlain (Hash : K → Nat) (m : hashmap K V) (k : K) (v : V)
    (hlen : m.table.length = m.table_size) (hpos : 1 ≤ m.table_size) :
    (entries (insertPlain Hash m k v)).Perm (entries m ++ [⟨k, v⟩]) := by
  unfold entries insertPlain
  exact flatten_set_append m.table _ _ (by rw [hlen]; exact Nat.mod_lt _ hpos)

theorem entries_insertAll (Hash : K → Nat) :
    ∀ (es : List (entry_t K V)) (acc : hashmap K V),
      acc.table.length = acc.table_size → 1 ≤ acc.table_size →
      (entries (insertAll Hash es acc)).Perm (entries acc ++ es) := by
  intro es
  induction es with
  | nil => intro acc _ _; simp [insertAll]
  | cons e es ih =>
    intro acc hlen hpos
    have hcons : insertAll Hash (e :: es) acc
        = insertAll Hash es (insertPlain Hash acc e.key e.val) := rfl
    rw [hcons]
    refine (ih (insertPlain Hash acc e.key e.val) (by simp [insertPlain, hlen]) hpos).trans ?_
    have := entries_insertPlain Hash acc e.key e.val hlen hpos
    refine (this.append_right es).trans ?_
    simp

theorem entries_new (size : Nat) : entries (hashmap.new size : hashmap K V) = [] := by
  unfold entries
  simp only [hashmap.new]
  rw [List.flatten_eq_nil_iff]
  intro l hl
  exact (List.eq_of_mem_replicate hl)

theorem entries_rehashed (Hash : K → Nat) (m : hashmap K V) (h : WF Hash m) :
    (entries (rehashed Hash m)).Perm (entries m) := by
  unfold rehashed
  have hp := h.pos
  have := entries_insertAll Hash (entries m) (hashmap.new (2 * m.table_size))
    (by simp [hashmap.new]) (by simp only [hashmap.new]; omega)
  rw [entries_new, List.nil_append] at this
  exact this

theorem entries_inserted (Hash : K → Nat) (m : hashmap K V) (k : K) (v : V) (h : WF Hash m) :
    (entries (inserted Hash m k v)).Perm (entries m ++ [⟨k, v⟩]) := by
  unfold inserted
  split_ifs with hfull
  · obtain ⟨-, hwf, -, -, -, -⟩ := rehash_spec Hash m h
    exact (entries_insertPlain Hash _ k v hwf.size_eq hwf.pos).trans
      ((entries_rehashed Hash m h).append_right _)
  · exact entries_insertPlain Hash m k v h.size_eq h.pos

theorem filter_flatten_bucket {α : Type} (q : α → Bool) :
    ∀ (L : List (List α)) (i : Nat),
      (∀ j, j ≠ i → ∀ e ∈ L.getD j [], q e = false) →
      L.flatten.filter q = (L.getD i []).filter q := by
  intro L
  induction L with
  | nil => intro i _; simp
  | cons b L ih =>
    intro i h
    rw [List.flatten_cons, List.filter_append]
    cases i with
    | zero =>
      have hnil : L.flatten.filter q = [] := by
        rw [List.filter_eq_nil_iff]
        intro e he
        obtain ⟨l, hl, hel⟩ := List.mem_flatten.1 he
        obtain ⟨n, hn, rfl⟩ := List.getElem_of_mem hl
        have := h (n + 1) (by omega) e (by simpa [List.getD_eq_getElem?_getD, hn] using hel)
        simp [this]
      simp [hnil]
    | succ i =>
      have hb : b.filter q = [] := by
        rw [List.filter_eq_nil_iff]
        intro e he
        have := h 0 (by omega) e (by simpa using he)
        simp [this]
      rw [hb, List.nil_append]
      simpa using ih i (fun j hj e he => h (j + 1) (by omega) e (by simpa using he))

theorem rehashed_bucket (Hash : K → Nat) (m : hashmap K V) (h : WF Hash m) (j : Nat) :
    (rehashed Hash m).table.getD j []
      = (m.table.getD (j % m.table_size) []).filter
          (fun e => decide (Hash e.key % (2 * m.table_size) = j)) := by
  obtain ⟨-, -, -, -, -, hb⟩ := rehash_spec Hash m h
  rw [hb j]
  unfold entries
  apply filter_flatten_bucket
  intro i hi e he
  have hpl := h.placed i e he
  simp only [decide_eq_false_iff_not]
  intro hj
  apply hi
  rw [← hpl, ← hj, Nat.mod_mod_of_dvd _ (Dvd.intro_left 2 rfl)]

theorem table_size_remove (Hash : K → Nat) (m : hashmap K V) (k : K) :
    (remove Hash m k).table_size = m.table_size := by
  unfold remove
  simp only []
  split <;> rfl

theorem table_size_pow [Inhabited V] (Hash : K → Nat) (size0 : Nat) (h0 : 1 ≤ size0)
    (m : hashmap K V) (h : ReachableFrom Hash size0 m) :
    ∃ n : Nat, m.table_size = size0 * 2 ^ n := by
  have hins : ∀ (m m2 : hashmap K V) (fuel : Nat) (k : K) (v : V),
      ReachableFrom Hash size0 m → insert Hash fuel m k v = some m2 →
      (∃ n : Nat, m.table_size = size0 * 2 ^ n) → ∃ n : Nat, m2.table_size = size0 * 2 ^ n := by
    intro m m2 fuel k v hr hi ⟨n, hn⟩
    have hwf := reachable_wf Hash m (reachableFrom_reachable Hash size0 h0 m hr)
    rw [insert_result Hash fuel m m2 k v hwf hi]
    split_ifs with hp
    · exact ⟨n, hn⟩
    · have hk : find Hash m k = none := by simpa using hp
      rw [(insert_spec Hash m k v hwf hk).2.2.2.1]
      split_ifs
      · exact ⟨n + 1, by rw [hn, pow_succ]; ring⟩
      · exact ⟨n, hn⟩
  induction h with
  | new => exact ⟨0, by simp [hashmap.new]⟩
  | insert fuel k v hr hi ih => exact hins _ _ fuel k v hr hi ih
  | remove k _ ih =>
    obtain ⟨n, hn⟩ := ih
    exact ⟨n, by rw [table_size_remove, hn]⟩
  | index fuel k v hr hidx ih =>
    exact hins _ _ (fuel + 1) k default hr (index_result Hash fuel _ _ k v hidx) ih
  | store k v _ ih => exact ih

theorem insertMany_spec [Inhabited V] (Hash : K → Nat) :
    ∀ (ops : List (K × V)) (m : hashmap K V), Reachable Hash m →
      ∃ m2, (∀ fuel, 2 ≤ fuel → insertMany Hash fuel m ops = some m2)
        ∧ Reachable Hash m2
        ∧ (∀ k, find Hash m2 k
            = (find Hash m k).or ((ops.find? (fun e => decide (e.1 = k))).map Prod.snd)) := by
  intro ops
  induction ops with
  | nil =>
    intro m hr
    exact ⟨m, fun _ _ => rfl, hr, by simp⟩
  | cons e ops ih =>
    intro m hr
    have hwf := reachable_wf Hash m hr
    cases hk : find Hash m e.1 with
    | some v0 =>
      have hp : (find Hash m e.1).isSome := by rw [hk]; rfl
      obtain ⟨m2, h1, h2, h3⟩ := ih m hr
      refine ⟨m2, ?_, h2, ?_⟩
      · intro fuel hf
        obtain ⟨g, rfl⟩ : ∃ g, fuel = g + 1 := ⟨fuel - 1, by omega⟩
        unfold insertMany
        rw [List.foldlM_cons, insert_present Hash g m e.1 e.2 hp]
        exact h1 (g + 1) hf
      · intro k
        rw [h3 k, List.find?_cons]
        by_cases hek : e.1 = k
        · subst hek
          simp [hk]
        · simp [hek]
    | none =>
      obtain ⟨h1, -, -, -, h5⟩ := insert_spec Hash m e.1 e.2 hwf hk
      have hr2 : Reachable Hash (inserted Hash m e.1 e.2) :=
        Reachable.insert 2 e.1 e.2 hr (h1 2 (le_refl 2))
      obtain ⟨m2, g1, g2, g3⟩ := ih (inserted Hash m e.1 e.2) hr2
      refine ⟨m2, ?_, g2, ?_⟩
      · intro fuel hf
        unfold insertMany
        rw [List.foldlM_cons, h1 fuel hf]
        exact g1 fuel hf
      · intro k
        rw [g3 k, h5 k, List.find?_cons]
        by_cases hek : k = e.1
        · subst hek
          simp [hk]
        · have : ¬ e.1 = k := fun h => hek h.symm
          simp [hek, this]

/-- C11: in every reachable state, `insert(k, v)` of an absent key returns (for every fuel of
at least 2, rehash or not) a state in which `find` of every other key is unchanged; and any
run of `insert` calls from a reachable state returns a state in which every key is found
with the value it had before the run or, when it was absent, with the value of its first
insertion in the run. -/
theorem resize_correctness [Inhabited V] (Hash : K → Nat) (m : hashmap K V)
    (hr : Reachable Hash m) :
    (∀ k v, find Hash m k = none →
        ∃ m2, (∀ fuel, 2 ≤ fuel → insert Hash fuel m k v = some m2)
          ∧ (∀ k2, k2 ≠ k → find Hash m2 k2 = find Hash m k2))
      ∧ (∀ ops : List (K × V),
        ∃ m2, (∀ fuel, 2 ≤ fuel → insertMany Hash fuel m ops = some m2)
          ∧ (∀ k, find Hash m2 k
              = (find Hash m k).or
                  ((ops.find? (fun e => decide (e.1 = k))).map Prod.snd))) := by
  have hwf := reachable_wf Hash m hr
  refine ⟨?_, ?_⟩
  · intro k v hk
    obtain ⟨h1, -, -, -, h5⟩ := insert_spec Hash m k v hwf hk
    refine ⟨inserted Hash m k v, h1, ?_⟩
    intro k2 hne
    rw [h5 k2, if_neg hne]
  · intro ops
    obtain ⟨m2, h1, -, h3⟩ := insertMany_spec Hash ops m hr
    exact ⟨m2, h1, h3⟩

theorem resize_correctness_two_rehashes :
    ((∀ k v, find idHash demoFull k = none →
        ∃ m2, (∀ fuel, 2 ≤ fuel → insert idHash fuel demoFull k v = some m2)
          ∧ (∀ k2, k2 ≠ k → find idHash m2 k2 = find idHash demoFull k2))
      ∧ (∀ ops : List (Nat × Nat),
        ∃ m2, (∀ fuel, 2 ≤ fuel → insertMany idHash fuel demoFull ops = some m2)
          ∧ (∀ k, find idHash m2 k
              = (find idHash demoFull k).or
                  ((ops.find? (fun e => decide (e.1 = k))).map Prod.snd))))
      ∧ insertMany idHash 2 demoFull [(1, 11), (2, 12), (1, 99), (3, 13)]
          = some ⟨[[⟨0, 10⟩], [⟨1, 11⟩], [⟨2, 12⟩], [⟨3, 13⟩]], 4, 4⟩ :=
  ⟨resize_correctness idHash demoFull demoFull_reachable, by decide⟩

/-- C13: in every reachable state no key occurs in two entries of the table: the keys of all
entries are pairwise distinct, so neither twice in one bucket nor in two different buckets. -/
theorem key_uniqueness [Inhabited V] (Hash : K → Nat) (m : hashmap K V)
    (hr : Reachable Hash m) :
    (keys m).Nodup
      ∧ (∀ i, ((m.table.getD i []).map entry_t.key).Nodup)
      ∧ (∀ i j, i ≠ j → ∀ e1 ∈ m.table.getD i [], ∀ e2 ∈ m.table.getD j [],
          e1.key ≠ e2.key) := by
  have hwf := reachable_wf Hash m hr
  refine ⟨entries_keys_nodup Hash m hwf, hwf.nodup, ?_⟩
  intro i j hij e1 h1 e2 h2 heq
  apply hij
  rw [← hwf.placed i e1 h1, ← hwf.placed j e2 h2, heq]

theorem demoGrown_reachable : Reachable idHash demoGrown := by
  have h1 : Reachable idHash (⟨[[⟨0, 10⟩]], 1, 1⟩ : hashmap Nat Nat) :=
    Reachable.insert 1 0 10 (Reachable.new 1 (by decide)) (by decide)
  have h2 : Reachable idHash (⟨[[⟨0, 10⟩], [⟨1, 11⟩]], 2, 2⟩ : hashmap Nat Nat) :=
    Reachable.insert 2 1 11 h1 (by decide)
  have h3 : Reachable idHash
      (⟨[[⟨0, 10⟩], [⟨1, 11⟩], [⟨2, 0⟩], []], 4, 3⟩ : hashmap Nat Nat) :=
    Reachable.index 2 2 0 h2 (by decide)
  have h4 : Reachable idHash
      (⟨[[⟨0, 10⟩, ⟨4, 14⟩], [⟨1, 11⟩], [⟨2, 0⟩], []], 4, 4⟩ : hashmap Nat Nat) :=
    Reachable.insert 1 4 14 h3 (by decide)
  have h5 := Reachable.remove 1 h4
  have e : remove idHash
      (⟨[[⟨0, 10⟩, ⟨4, 14⟩], [⟨1, 11⟩], [⟨2, 0⟩], []], 4, 4⟩ : hashmap Nat Nat) 1
      = demoGrown := by decide
  rw [e] at h5
  exact h5

theorem key_uniqueness_witness :
    ((keys demoGrown).Nodup
      ∧ (∀ i, ((demoGrown.table.getD i []).map entry_t.key).Nodup)
      ∧ (∀ i j, i ≠ j → ∀ e1 ∈ demoGrown.table.getD i [], ∀ e2 ∈ demoGrown.table.getD j [],
          e1.key ≠ e2.key))
      ∧ keys demoGrown = [0, 4, 2]
      ∧ demoGrown.table.map (List.map entry_t.key) = [[0, 4], [], [2], []] :=
  ⟨key_uniqueness idHash demoGrown demoGrown_reachable, by decide, by decide⟩

/-- C17: in every state reachable from a constructor call with table size `size0`,
`insert(k, v)` of an absent key doubles `table_size` exactly when `map_size` equals
`table_size` and otherwise keeps it; the entries afterwards are the old ones and the new one,
each in the bucket whose index is `Hash(key)` modulo the new `table_size`; and `table_size`
is `size0` times a power of two before and after. -/
theorem resize_policy [Inhabited V] (Hash : K → Nat) (size0 : Nat) (h0 : 1 ≤ size0)
    (m : hashmap K V) (hr : ReachableFrom Hash size0 m) (k : K) (v : V)
    (hk : find Hash m k = none) :
    ∃ m2, (∀ fuel, 2 ≤ fuel → insert Hash fuel m k v = some m2)
      ∧ (m2.table_size = 2 * m.table_size ↔ m.map_size = (m.table_size : Int))
      ∧ (m.map_size ≠ (m.table_size : Int) → m2.table_size = m.table_size)
      ∧ (↑(entries m2) : Multiset (entry_t K V)) = ↑(entries m ++ [(⟨k, v⟩ : entry_t K V)])
      ∧ (∀ i, ∀ e ∈ m2.table.getD i [], i = Hash e.key % m2.table_size)
      ∧ m2.table.length = m2.table_size
      ∧ (∃ n : Nat, m.table_size = size0 * 2 ^ n)
      ∧ (∃ n : Nat, m2.table_size = size0 * 2 ^ n) := by
  have hreach := reachableFrom_reachable Hash size0 h0 m hr
  have hwf := reachable_wf Hash m hreach
  have hpos := hwf.pos
  obtain ⟨h1, h2, -, h4, -⟩ := insert_spec Hash m k v hwf hk
  have hr2 : ReachableFrom Hash size0 (inserted Hash m k v) :=
    ReachableFrom.insert 2 k v hr (h1 2 (le_refl 2))
  refine ⟨inserted Hash m k v, h1, ?_, ?_, Multiset.coe_eq_coe.2 (entries_inserted Hash m k v hwf),
    fun i e he => (h2.placed i e he).symm, h2.size_eq, table_size_pow Hash size0 h0 m hr,
    table_size_pow Hash size0 h0 _ hr2⟩
  · rw [h4]
    split_ifs with hfull
    · exact ⟨fun _ => hfull, fun _ => rfl⟩
    · exact ⟨fun h => by omega, fun h => absurd h hfull⟩
  · intro hne
    rw [h4, if_neg hne]

theorem demoFull_reachableFrom : ReachableFrom idHash 1 demoFull :=
  ReachableFrom.insert 1 0 10 ReachableFrom.new (by decide)

theorem resize_policy_doubling :
    ∃ m2, (∀ fuel, 2 ≤ fuel → insert idHash fuel demoFull 1 11 = some m2)
      ∧ (m2.table_size = 2 * demoFull.table_size
          ↔ demoFull.map_size = (demoFull.table_size : Int))
      ∧ (demoFull.map_size ≠ (demoFull.table_size : Int)
          → m2.table_size = demoFull.table_size)
      ∧ (↑(entries m2) : Multiset (entry_t Nat Nat)) = ↑(entries demoFull ++ [(⟨1, 11⟩ : entry_t Nat Nat)])
      ∧ (∀ i, ∀ e ∈ m2.table.getD i [], i = idHash e.key % m2.table_size)
      ∧ m2.table.length = m2.table_size
      ∧ (∃ n : Nat, demoFull.table_size = 1 * 2 ^ n)
      ∧ (∃ n : Nat, m2.table_size = 1 * 2 ^ n) :=
  resize_policy idHash 1 (le_refl 1) demoFull demoFull_reachableFrom 1 11 (by decide)

/-- C18: in every reachable state `rehash()` returns (for every fuel of at least 1) a table of
twice the size with the same multiset of entries, whose bucket `j` is the old bucket
`j mod table_size` filtered to the entries with `Hash(key)` modulo the new size equal to `j`;
so entries that share a bucket afterwards shared one before, in the same relative order. -/
theorem rehash_preserves [Inhabited V] (Hash : K → Nat) (m : hashmap K V)
    (hr : Reachable Hash m) :
    ∃ m2, (∀ fuel, 1 ≤ fuel → rehash Hash fuel m = some m2)
      ∧ m2.table_size = 2 * m.table_size
      ∧ (↑(entries m2) : Multiset (entry_t K V)) = ↑(entries m)
      ∧ (∀ j, m2.table.getD j []
          = (m.table.getD (j % m.table_size) []).filter
              (fun e => decide (Hash e.key % m2.table_size = j)))
      ∧ (∀ j, (m2.table.getD j []).Sublist (m.table.getD (j % m.table_size) [])) := by
  have hwf := reachable_wf Hash m hr
  obtain ⟨h1, -, h3, -, -, -⟩ := rehash_spec Hash m hwf
  refine ⟨rehashed Hash m, ?_, h3, Multiset.coe_eq_coe.2 (entries_rehashed Hash m hwf), ?_, ?_⟩
  · intro fuel hf
    obtain ⟨g, rfl⟩ : ∃ g, fuel = g + 1 := ⟨fuel - 1, by omega⟩
    exact h1 g
  · intro j
    rw [h3]
    exact rehashed_bucket Hash m hwf j
  · intro j
    rw [rehashed_bucket Hash m hwf j]
    exact List.filter_sublist _

theorem demoChain_reachable : Reachable idHash demoChain := by
  have h1 : Reachable idHash (⟨[[⟨0, 10⟩], []], 2, 1⟩ : hashmap Nat Nat) :=
    Reachable.insert 1 0 10 (Reachable.new 2 (by decide)) (by decide)
  exact Reachable.insert 1 2 12 h1 (by decide)

theorem rehash_preserves_witness :
    (∃ m2, (∀ fuel, 1 ≤ fuel → rehash idHash fuel demoChain = some m2)
      ∧ m2.table_size = 2 * demoChain.table_size
      ∧ (↑(entries m2) : Multiset (entry_t Nat Nat)) = ↑(entries demoChain)
      ∧ (∀ j, m2.table.getD j []
          = (demoChain.table.getD (j % demoChain.table_size) []).filter
              (fun e => decide (idHash e.key % m2.table_size = j)))
      ∧ (∀ j, (m2.table.getD j []).Sublist
          (demoChain.table.getD (j % demoChain.table_size) [])))
      ∧ rehash idHash 1 demoChain = some ⟨[[⟨0, 10⟩], [], [⟨2, 12⟩], []], 4, 2⟩ :=
  ⟨rehash_preserves idHash demoChain demoChain_reachable, by decide⟩

theorem table_size_insertAll (Hash : K → Nat) :
    ∀ (es : List (entry_t K V)) (acc : hashmap K V),
      (insertAll Hash es acc).table_size = acc.table_size := by
  intro es
  induction es with
  | nil => intro acc; rfl
  | cons e es ih =>
    intro acc
    have hcons : insertAll Hash (e :: es) acc
        = insertAll Hash es (insertPlain Hash acc e.key e.val) := rfl
    rw [hcons, ih]
    rfl

theorem map_size_insertAll (Hash : K → Nat) :
    ∀ (es : List (entry_t K V)) (acc : hashmap K V),
      (insertAll Hash es acc).map_size = acc.map_size + (es.length : Int) := by
  intro es
  induction es with
  | nil => intro acc; simp [insertAll]
  | cons e es ih =>
    intro acc
    have hcons : insertAll Hash (e :: es) acc
        = insertAll Hash es (insertPlain Hash acc e.key e.val) := rfl
    have hm : (insertPlain Hash acc e.key e.val).map_size = acc.map_size + 1 := rfl
    rw [hcons, ih, hm, List.length_cons]
    push_cast
    omega

/-- C20: in every reachable state `table_size` is at least 1 and is the number of buckets, so
`Hash(key) % table_size` indexes an existing bucket, and `0 <= map_size <= table_size`; when
`rehash()` runs, the table it has built before each of its `insert` calls holds fewer
entries than it has buckets, so the capacity test of that `insert` fails, and `rehash()`
finishes on fuel 1, which leaves no fuel for a `rehash()` inside it. -/
theorem capacity_invariant [Inhabited V] (Hash : K → Nat) (m : hashmap K V)
    (hr : Reachable Hash m) :
    1 ≤ m.table_size
      ∧ m.table.length = m.table_size
      ∧ (∀ k, Hash k % m.table_size < m.table.length)
      ∧ 0 ≤ m.map_size ∧ m.map_size ≤ (m.table_size : Int)
      ∧ (∀ n, n < (entries m).length →
          let built := insertAll Hash ((entries m).take n) (hashmap.new (2 * m.table_size))
          ¬ (built.map_size ≥ (built.table_size : Int)))
      ∧ rehash Hash 1 m = some (rehashed Hash m) := by
  have hwf := reachable_wf Hash m hr
  have hc := hwf.count
  have hcap := hwf.cap
  have hpos := hwf.pos
  refine ⟨hwf.pos, hwf.size_eq, ?_, by omega, hwf.cap, ?_, (rehash_spec Hash m hwf).1 0⟩
  · intro k
    rw [hwf.size_eq]
    exact Nat.mod_lt _ hwf.pos
  · intro n hn
    simp only []
    rw [map_size_insertAll, table_size_insertAll]
    have hlen := length_entries m
    simp only [hashmap.new, List.length_take]
    push_cast
    omega

theorem capacity_invariant_witness :
    1 ≤ demoChain.table_size
      ∧ demoChain.table.length = demoChain.table_size
      ∧ (∀ k, idHash k % demoChain.table_size < demoChain.table.length)
      ∧ 0 ≤ demoChain.map_size ∧ demoChain.map_size ≤ (demoChain.table_size : Int)
      ∧ (∀ n, n < (entries demoChain).length →
          let built := insertAll idHash ((entries demoChain).take n)
            (hashmap.new (2 * demoChain.table_size))
          ¬ (built.map_size ≥ (built.table_size : Int)))
      ∧ rehash idHash 1 demoChain = some (rehashed idHash demoChain) :=
  capacity_invariant idHash demoChain demoChain_reachable

theorem Tracks.after_index {Hash : String → Nat} {m : hashmap String Int}
    {f : String → Option Int} {n : Int} (h : Tracks Hash m f n) (k : String)
    (fuel : Nat) (hf : 2 ≤ fuel) :
    ∃ m2, index Hash fuel m k = some ((f k).getD 0, m2)
      ∧ Tracks Hash m2 (fun k2 => if k2 = k then some ((f k).getD 0) else f k2)
          (n + if (f k).isSome then 0 else 1) := by
  cases hk : f k with
  | some v =>
    have hk2 : find Hash m k = some v := by rw [h.find_eq, hk]
    refine ⟨m, ?_, h.wf, ?_, ?_⟩
    · rw [index_eq Hash m k h.wf fuel hf, hk2]
      rfl
    · intro k2
      rw [h.find_eq]
      by_cases hkk : k2 = k
      · rw [if_pos hkk, hkk, hk]
        rfl
      · rw [if_neg hkk]
    · rw [h.size_eq]
      simp
  | none =>
    have hk2 : find Hash m k = none := by rw [h.find_eq, hk]
    obtain ⟨-, h2, h3, -, h5⟩ := insert_spec Hash m k 0 h.wf hk2
    refine ⟨inserted Hash m k 0, ?_, h2, ?_, ?_⟩
    · rw [index_eq Hash m k h.wf fuel hf, hk2]
      rfl
    · intro k2
      rw [h5 k2, h.find_eq]
      rfl
    · unfold size
      rw [h3]
      have := h.size_eq
      unfold size at this
      rw [this]
      simp

theorem Tracks.after_output_line {Hash : String → Nat} {m : hashmap String Int}
    {f : String → Option Int} {n : Int} (h : Tracks Hash m f n) (a b : String)
    (hab : a ≠ b) (fuel : Nat) (hf : 2 ≤ fuel) (rightFirst : Bool) :
    ∃ m2, output_line Hash fuel rightFirst m a b
        = some ((f a).getD 0, (f b).getD 0, m2)
      ∧ Tracks Hash m2
          (fun k => if k = a then some ((f a).getD 0)
            else if k = b then some ((f b).getD 0) else f k)
          (n + (if (f a).isSome then 0 else 1) + (if (f b).isSome then 0 else 1)) := by
  have hba : b ≠ a := fun h => hab h.symm
  cases rightFirst with
  | false =>
    obtain ⟨m1, e1, t1⟩ := h.after_index a fuel hf
    obtain ⟨m2, e2, t2⟩ := t1.after_index b fuel hf
    simp only [if_neg hba] at e2 t2
    refine ⟨m2, ?_, t2.wf, ?_, ?_⟩
    · unfold output_line
      simp only [Bool.false_eq_true, if_false, e1, Option.some_bind, e2]
    · intro k
      rw [t2.find_eq]
      by_cases hka : k = a
      · subst hka
        simp [hab]
      · simp [hka]
    · exact t2.size_eq
  | true =>
    obtain ⟨m1, e1, t1⟩ := h.after_index b fuel hf
    obtain ⟨m2, e2, t2⟩ := t1.after_index a fuel hf
    simp only [if_neg hab] at e2 t2
    refine ⟨m2, ?_, t2.wf, ?_, ?_⟩
    · unfold output_line
      simp only [if_true, e1, Option.some_bind, e2]
    · intro k
      rw [t2.find_eq]
    · rw [t2.size_eq]
      omega

theorem Tracks.after_insert_absent {Hash : String → Nat} {m : hashmap String Int}
    {f : String → Option Int} {n : Int} (h : Tracks Hash m f n) (k : String) (v : Int)
    (hk : f k = none) (fuel : Nat) (hf : 2 ≤ fuel) :
    insert Hash fuel m k v = some (inserted Hash m k v)
      ∧ Tracks Hash (inserted Hash m k v) (fun k2 => if k2 = k then some v else f k2)
          (n + 1) := by
  have hk2 : find Hash m k = none := by rw [h.find_eq, hk]
  obtain ⟨h1, h2, h3, -, h5⟩ := insert_spec Hash m k v h.wf hk2
  refine ⟨h1 fuel hf, h2, ?_, ?_⟩
  · intro k2
    rw [h5 k2, h.find_eq]
  · unfold size
    rw [h3]
    have := h.size_eq
    unfold size at this
    rw [this]

theorem Tracks.after_store {Hash : String → Nat} {m : hashmap String Int}
    {f : String → Option Int} {n : Int} (h : Tracks Hash m f n) (k : String) (v : Int) :
    Tracks Hash (store Hash m k v)
      (fun k2 => if k2 = k then (f k).map (fun _ => v) else f k2) n := by
  refine ⟨store_wf Hash m k v h.wf, ?_, h.size_eq⟩
  intro k2
  rw [find_store Hash m k v h.wf, h.find_eq, h.find_eq]

theorem Tracks.after_remove {Hash : String → Nat} {m : hashmap String Int}
    {f : String → Option Int} {n : Int} (h : Tracks Hash m f n) (k : String) (v : Int)
    (hk : f k = some v) :
    Tracks Hash (remove Hash m k) (fun k2 => if k2 = k then none else f k2) (n - 1) := by
  have hk2 : (find Hash m k).isSome := by rw [h.find_eq, hk]; rfl
  obtain ⟨h1, -, h3, h4⟩ := remove_spec Hash m k h.wf
  refine ⟨h1, ?_, ?_⟩
  · intro k2
    rw [h4 k2, h.find_eq]
  · unfold size
    rw [h3, if_pos hk2]
    have := h.size_eq
    unfold size at this
    rw [this]

/-- C12: for every hash function on strings, every fuel of at least 2 and either order of
the two `operator[]` calls of an output line, the statements of `main` on a map of table
size 1024 read `M["foo"]` as 1 and `M["bar"]` as 2, then `M["baz"]` and `M["qux"]` as 0 and
0, after which `size()` is 4; after `remove("foo")` `size()` is 3, and then `M["foo"]` reads
0 and `M["bar"]` reads 2. -/
theorem main_demo_output (Hash : String → Nat) (fuel : Nat) (hf : 2 ≤ fuel)
    (rightFirst : Bool) :
    main_demo Hash fuel rightFirst = some (1, 2, 0, 0, 4, 3, 0, 2) := by
  have t0 : Tracks Hash (hashmap.new 1024 : hashmap String Int) (fun _ => none) 0 :=
    ⟨new_wf Hash 1024 (by decide), fun k => find_new Hash 1024 k, rfl⟩
  obtain ⟨m1, e0, t1⟩ := t0.after_index "foo" fuel hf
  have t2 := t1.after_store "foo" 1
  obtain ⟨e2, t3⟩ := t2.after_insert_absent "bar" 2 (by decide) fuel hf
  obtain ⟨m4, e4, t4⟩ := t3.after_output_line "foo" "bar" (by decide) fuel hf rightFirst
  obtain ⟨m5, e5, t5⟩ := t4.after_output_line "baz" "qux" (by decide) fuel hf rightFirst
  have t6 := t5.after_remove "foo" 1 (by decide)
  obtain ⟨m7, e7, t7⟩ := t6.after_output_line "foo" "bar" (by decide) fuel hf rightFirst
  have s4 := t5.size_eq
  have s3 := t6.size_eq
  unfold main_demo
  simp only [e0, Option.some_bind, e2, e4, e5, e7, s4, s3]
  simp

theorem main_demo_output_length_hash :
    main_demo String.length 2 false = some (1, 2, 0, 0, 4, 3, 0, 2) :=
  main_demo_output String.length 2 (le_refl 2) false

theorem xor_mask_eq (x : Nat) (h : x < 4294967296) : x ^^^ 4294967295 = 4294967295 - x := by
  apply Nat.eq_of_testBit_eq
  intro i
  have h32 : (4294967296 : Nat) = 2 ^ 32 := by norm_num
  have e1 : (4294967295 : Nat) = 2 ^ 32 - 1 := by norm_num
  have e2 : 4294967295 - x = 2 ^ 32 - (x + 1) := by omega
  rw [Nat.testBit_xor, e2, Nat.testBit_two_pow_sub_succ (by omega), e1,
    Nat.testBit_two_pow_sub_one]
  by_cases hi : i < 32
  · simp [hi]
  · have : x.testBit i = false := by
      apply Nat.testBit_lt_two_pow
      calc x < 2 ^ 32 := by omega
        _ ≤ 2 ^ i := Nat.pow_le_pow_right (by norm_num) (by omega)
    simp [hi, this]

theorem xorshift_inj (k : Nat) (hk : 1 ≤ k) (x y : Nat) (hx : x < 4294967296)
    (hy : y < 4294967296) (h : x ^^^ (x >>> k) = y ^^^ (y >>> k)) : x = y := by
  have key : ∀ d i, 32 ≤ i + d → x.testBit i = y.testBit i := by
    intro d
    induction d with
    | zero =>
      intro i hi
      have hp : (4294967296 : Nat) ≤ 2 ^ i := by
        calc (4294967296 : Nat) = 2 ^ 32 := by norm_num
          _ ≤ 2 ^ i := Nat.pow_le_pow_right (by norm_num) (by omega)
      rw [Nat.testBit_lt_two_pow (by omega), Nat.testBit_lt_two_pow (by omega)]
    | succ d ih =>
      intro i hi
      have hb := congrArg (fun z => Nat.testBit z i) h
      simp only [Nat.testBit_xor, Nat.testBit_shiftRight] at hb
      rw [ih (k + i) (by omega)] at hb
      cases hxb : x.testBit i <;> cases hyb : y.testBit i <;>
        cases hzb : y.testBit (k + i) <;> simp_all
  exact Nat.eq_of_testBit_eq (fun i => key 32 i (by omega))

theorem xorshift_lt (k : Nat) (x : Nat) (hx : x < 4294967296) :
    x ^^^ (x >>> k) < 4294967296 := by
  have h32 : (4294967296 : Nat) = 2 ^ 32 := by norm_num
  rw [h32] at hx ⊢
  refine Nat.xor_lt_two_pow hx ?_
  refine lt_of_le_of_lt ?_ hx
  rw [Nat.shiftRight_eq_div_pow]
  exact Nat.div_le_self _ _

theorem mul_mod_inj (c : Nat) (hc : Nat.Coprime 4294967296 c) (x y : Nat)
    (hx : x < 4294967296) (hy : y < 4294967296)
    (h : x * c % 4294967296 = y * c % 4294967296) : x = y := by
  have h1 : x * c ≡ y * c [MOD 4294967296] := h
  exact Nat.ModEq.eq_of_lt_of_lt (Nat.ModEq.cancel_right_of_coprime hc h1) hx hy

theorem mul_add_mod_inj (c d : Nat) (hc : Nat.Coprime 4294967296 c) (x y : Nat)
    (hx : x < 4294967296) (hy : y < 4294967296)
    (h : (x * c + d) % 4294967296 = (y * c + d) % 4294967296) : x = y := by
  have h1 : x * c + d ≡ y * c + d [MOD 4294967296] := h
  exact mul_mod_inj c hc x y hx hy (Nat.ModEq.add_right_cancel' d h1)

theorem mix_first_inj (a b : Nat) (ha : a < 4294967296) (hb : b < 4294967296)
    (h : ((a ^^^ 4294967295) + (a <<< 15) % 4294967296) % 4294967296
      = ((b ^^^ 4294967295) + (b <<< 15) % 4294967296) % 4294967296) : a = b := by
  rw [xor_mask_eq a ha, xor_mask_eq b hb, Nat.add_mod_mod (4294967295 - a),
    Nat.add_mod_mod (4294967295 - b), Nat.shiftLeft_eq, Nat.shiftLeft_eq] at h
  have r1 : 4294967295 - a + a * 2 ^ 15 = a * 32767 + 4294967295 := by
    have : a * 2 ^ 15 = a * 32767 + a := by ring
    omega
  have r2 : 4294967295 - b + b * 2 ^ 15 = b * 32767 + 4294967295 := by
    have : b * 2 ^ 15 = b * 32767 + b := by ring
    omega
  rw [r1, r2] at h
  exact mul_add_mod_inj 32767 4294967295 (by decide) a b ha hb h

theorem mix_third_inj (a b : Nat) (ha : a < 4294967296) (hb : b < 4294967296)
    (h : (a + (a <<< 2) % 4294967296) % 4294967296
      = (b + (b <<< 2) % 4294967296) % 4294967296) : a = b := by
  rw [Nat.add_mod_mod a, Nat.add_mod_mod b, Nat.shiftLeft_eq, Nat.shiftLeft_eq] at h
  have r1 : a + a * 2 ^ 2 = a * 5 := by ring
  have r2 : b + b * 2 ^ 2 = b * 5 := by ring
  rw [r1, r2] at h
  exact mul_mod_inj 5 (by decide) a b ha hb h

/-- C19: the `unsigned int` overload of `class_hash` is one-to-one on 32-bit values. -/
theorem class_hash_uint_injective (a b : Nat) (ha : a < 4294967296) (hb : b < 4294967296)
    (h : class_hash_uint a = class_hash_uint b) : a = b := by
  unfold class_hash_uint at h
  simp only [] at h
  have hM : (0 : Nat) < 4294967296 := by norm_num
  generalize ha1 : ((a ^^^ 4294967295) + (a <<< 15) % 4294967296) % 4294967296 = a1 at h
  generalize hb1 : ((b ^^^ 4294967295) + (b <<< 15) % 4294967296) % 4294967296 = b1 at h
  have la1 : a1 < 4294967296 := by rw [← ha1]; exact Nat.mod_lt _ hM
  have lb1 : b1 < 4294967296 := by rw [← hb1]; exact Nat.mod_lt _ hM
  generalize ha2 : a1 ^^^ (a1 >>> 12) = a2 at h
  generalize hb2 : b1 ^^^ (b1 >>> 12) = b2 at h
  have la2 : a2 < 4294967296 := by rw [← ha2]; exact xorshift_lt 12 a1 la1
  have lb2 : b2 < 4294967296 := by rw [← hb2]; exact xorshift_lt 12 b1 lb1
  generalize ha3 : (a2 + (a2 <<< 2) % 4294967296) % 4294967296 = a3 at h
  generalize hb3 : (b2 + (b2 <<< 2) % 4294967296) % 4294967296 = b3 at h
  have la3 : a3 < 4294967296 := by rw [← ha3]; exact Nat.mod_lt _ hM
  have lb3 : b3 < 4294967296 := by rw [← hb3]; exact Nat.mod_lt _ hM
  generalize ha4 : a3 ^^^ (a3 >>> 4) = a4 at h
  generalize hb4 : b3 ^^^ (b3 >>> 4) = b4 at h
  have la4 : a4 < 4294967296 := by rw [← ha4]; exact xorshift_lt 4 a3 la3
  have lb4 : b4 < 4294967296 := by rw [← hb4]; exact xorshift_lt 4 b3 lb3
  have l1 : a4 * 2057 % 4294967296 < 4294967296 := Nat.mod_lt _ hM
  have l2 : b4 * 2057 % 4294967296 < 4294967296 := Nat.mod_lt _ hM
  have h16 : 1 ≤ 16 := by norm_num
  have h5 : a4 * 2057 % 4294967296 = b4 * 2057 % 4294967296 :=
    xorshift_inj 16 h16 (a4 * 2057 % 4294967296) (b4 * 2057 % 4294967296) l1 l2 h
  have e4 : a4 = b4 := mul_mod_inj 2057 (by decide) a4 b4 la4 lb4 h5
  have e3 : a3 = b3 := xorshift_inj 4 (by norm_num) a3 b3 la3 lb3 (by rw [ha4, hb4, e4])
  have e2 : a2 = b2 := mix_third_inj a2 b2 la2 lb2 (by rw [ha3, hb3, e3])
  have e1 : a1 = b1 := xorshift_inj 12 (by norm_num) a1 b1 la1 lb1 (by rw [ha2, hb2, e2])
  exact mix_first_inj a b ha hb (by rw [ha1, hb1, e1])

theorem class_hash_uint_injective_witness :
    (5 : Nat) < 4294967296 ∧ class_hash_uint 5 = 1714945011 ∧ (5 : Nat) = 5 :=
  ⟨by norm_num, by decide, class_hash_uint_injective 5 5 (by norm_num) (by norm_num) rfl⟩

end Hashmap
